import Mathlib

/-!
# Verification of the radix-trie autocomplete core and its pack/unpack codec

Shallow embedding of `src/radix.ts` (compressed prefix trie) and
`src/pack.ts` (line-oriented codec) of the `react-trie-autocomplete`
repository.

Modelling conventions:
* JavaScript strings are `List Char` (`Str` below); single-character map
  keys are `Char`.
* JavaScript numbers used as scores are modelled as `ℚ`.  `toFixed` and
  `Number` are modelled as exact decimal printing/parsing; the `NaN`
  produced by `Number` on garbage is modelled as `0`, which no theorem
  relies on.
* `localeCompare` is modelled as code-point lexicographic comparison.
* A JavaScript `Map` is an insertion-ordered association list; `set` with
  an existing key replaces the value at its original position, a new key
  is appended at the end.  Iteration order is list order.
* `Array.prototype.sort` (stable since ES2019) is modelled with the
  stable `List.insertionSort`; for a total transitive comparator a stable
  sort has a unique result, so the choice of stable algorithm is
  immaterial.
* `text.toLowerCase()` is modelled as `List.map Char.toLower`
  (character-wise case folding).
-/

abbrev Str := List Char

/-- An autocomplete entry: display text plus ranking score
(`TrieEntry` in `src/trie.ts`; the opaque `data` payload is not modelled). -/
structure Entry where
  text : Str
  score : ℚ
deriving DecidableEq, Repr

/-- A radix-trie node (`RadixNode` in `src/radix.ts`): insertion-ordered
children keyed by the first character of the edge label, and the entries
stored at this node.  A child is `(key, edge label, child node)`. -/
inductive RadixNode where
  | mk : List (Char × Str × RadixNode) → List Entry → RadixNode

/-- The children map of a node. -/
def RadixNode.children : RadixNode → List (Char × Str × RadixNode)
  | .mk c _ => c

/-- The entries stored at a node. -/
def RadixNode.entries : RadixNode → List Entry
  | .mk _ e => e

/-- `Map.get` on the children map. -/
def lookupEdge : List (Char × Str × RadixNode) → Char → Option (Str × RadixNode)
  | [], _ => none
  | (k, lbl, n) :: t, c => if k = c then some (lbl, n) else lookupEdge t c

/-- Longest common prefix length of two strings, as computed by the
`while (j < maxJ && label[j] === text[pos + j]) j++` loop. -/
def commonPrefixLen : Str → Str → ℕ
  | a :: as, b :: bs => if a = b then commonPrefixLen as bs + 1 else 0
  | _, _ => 0

mutual

/-- `RadixTrie.insertAt` from `src/radix.ts`.  The remaining text
`text.slice(pos)` is passed directly; the returned `ℕ` is the number of
nodes created (the source's `_nodeCount` increments). -/
def insertAt : RadixNode → Str → Entry → RadixNode × ℕ
  | .mk children entries, [], e => (.mk children (entries ++ [e]), 0)
  | .mk children entries, c :: rest, e =>
    match lookupEdge children c with
    | none =>
      -- no matching edge: new leaf with the remaining text as its label
      (.mk (children ++ [(c, c :: rest, .mk [] [e])]) entries, 1)
    | some _ =>
      let r := insertChildren children c rest e
      (.mk r.1 entries, r.2)

/-- Walks the children map to the edge keyed `c` and performs the
matching-edge logic of `insertAt` there (the source's `Map.get` followed
by `Map.set` with the same key, which replaces in place). -/
def insertChildren : List (Char × Str × RadixNode) → Char → Str → Entry →
    List (Char × Str × RadixNode) × ℕ
  | [], c, rest, e => ([(c, c :: rest, .mk [] [e])], 1)
  | (k, label, child) :: t, c, rest, e =>
    if k = c then
      let tx := c :: rest
      let j := commonPrefixLen label tx
      if j = label.length then
        -- full edge match: continue inserting below the child
        let r := insertAt child (tx.drop j) e
        ((k, label, r.1) :: t, r.2)
      else
        -- partial match: split the edge at position j
        match label.drop j, tx.drop j with
        | lj :: ltail, [] =>
          -- insert text ends exactly at the split point
          ((k, label.take j, .mk [(lj, lj :: ltail, child)] [e]) :: t, 1)
        | lj :: ltail, tj :: ttail =>
          -- text continues past the split: new leaf
          ((k, label.take j,
            .mk [(lj, lj :: ltail, child), (tj, tj :: ttail, .mk [] [e])] []) :: t, 2)
        | [], _ =>
          -- unreachable: j ≠ label.length and j ≤ label.length
          ((k, label, child) :: t, 0)
    else
      let r := insertChildren t c rest e
      ((k, label, child) :: r.1, r.2)

end

mutual

/-- `RadixTrie.findPrefixNode`: navigate to the node representing the
given (already normalized) prefix, or `none`. -/
def findPrefixNode : RadixNode → Str → Option RadixNode
  | node, [] => some node
  | .mk children _, c :: rest => findPrefixChildren children c rest

/-- The edge-lookup step of `findPrefixNode`. -/
def findPrefixChildren : List (Char × Str × RadixNode) → Char → Str → Option RadixNode
  | [], _, _ => none
  | (k, label, child) :: t, c, rest =>
    if k = c then
      let tx := c :: rest
      if tx.length ≤ label.length then
        -- prefix may end inside this edge: check the overlap
        if tx.isPrefixOf label then some child else none
      else
        -- remaining text longer than the label: full match required
        if label.isPrefixOf tx then findPrefixNode child (tx.drop label.length) else none
    else findPrefixChildren t c rest

end

mutual

/-- `RadixTrie.collectAll`: all entries in the subtree, node entries
first, children in map iteration order. -/
def collectAll : RadixNode → List Entry
  | .mk children entries => entries ++ collectChildren children

/-- `collectAll` over a children list. -/
def collectChildren : List (Char × Str × RadixNode) → List Entry
  | [] => []
  | (_, _, n) :: t => collectAll n ++ collectChildren t

end

/-- Code-point lexicographic `≤` on strings, the model of
`a.text.localeCompare(b.text) ≤ 0`. -/
def lexLe : Str → Str → Bool
  | [], _ => true
  | _ :: _, [] => false
  | a :: as, b :: bs =>
    if a.toNat < b.toNat then true
    else if b.toNat < a.toNat then false
    else lexLe as bs

/-- The search comparator of `src/radix.ts` as a relation: `a` may come
before `b` iff `a` has the larger score, or scores tie and `a.text` is
lexicographically no larger. -/
def entryLE (a b : Entry) : Prop :=
  if a.score = b.score then lexLe a.text b.text = true else b.score < a.score

instance : DecidableRel entryLE := fun a b => by
  unfold entryLE
  infer_instance

/-- The whole trie: root node plus the `_size`, `_nodeCount` and
`caseSensitive` fields of the `RadixTrie` class. -/
structure RadixTrie where
  root : RadixNode
  size : ℕ
  nodeCount : ℕ
  caseSensitive : Bool

/-- A fresh trie (`new RadixTrie(options)`): empty root, node count 1. -/
def RadixTrie.mkEmpty (cs : Bool) : RadixTrie :=
  ⟨.mk [] [], 0, 1, cs⟩

/-- `normalize`: case-fold unless case-sensitive. -/
def jsNormalize (cs : Bool) (t : Str) : Str :=
  if cs then t else t.map Char.toLower

/-- `RadixTrie.insert`. -/
def RadixTrie.insert (tr : RadixTrie) (text : Str) (score : ℚ) : RadixTrie :=
  let r := insertAt tr.root (jsNormalize tr.caseSensitive text) ⟨text, score⟩
  ⟨r.1, tr.size + 1, tr.nodeCount + r.2, tr.caseSensitive⟩

/-- `RadixTrie.search`: navigate, collect, sort by the comparator,
truncate to `limit`. -/
def RadixTrie.search (tr : RadixTrie) (pre : Str) (limit : ℕ) : List Entry :=
  match findPrefixNode tr.root (jsNormalize tr.caseSensitive pre) with
  | none => []
  | some n => (List.insertionSort entryLE (collectAll n)).take limit

/-- `RadixTrie.fromStrings` with default options (case-insensitive,
all scores 0). -/
def RadixTrie.fromStrings (l : List Str) : RadixTrie :=
  l.foldl (fun t s => t.insert s 0) (RadixTrie.mkEmpty false)

/-- `RadixTrie.fromEntries` with default options (case-insensitive). -/
def RadixTrie.fromEntries (l : List Entry) : RadixTrie :=
  l.foldl (fun t e => t.insert e.text e.score) (RadixTrie.mkEmpty false)

/-! ## Escaping (`escapeLabel` / `unescapeLabel` in `src/pack.ts`) -/

/-- One step of `escapeLabel`'s `switch`: the structural delimiters
`|`, `>`, `\` and newline become two-character backslash sequences,
everything else passes through. -/
def escapeChar (c : Char) : Str :=
  if c = '|' then ['\\', '|']
  else if c = '>' then ['\\', '>']
  else if c = '\\' then ['\\', '\\']
  else if c = '\n' then ['\\', 'n']
  else [c]

/-- `escapeLabel`: escape special characters in edge labels. -/
def escapeLabel (s : Str) : Str :=
  s.flatMap escapeChar

/-- `unescapeLabel`: the `while` loop over `label` with lookahead.  A
backslash followed by a recognized character decodes it; an unknown
escape or a trailing backslash is copied verbatim. -/
def unescapeLabel : Str → Str
  | [] => []
  | c :: rest =>
    if c = '\\' then
      match rest with
      | [] => [c]
      | n :: rest' =>
        if n = '|' ∨ n = '>' ∨ n = '\\' then n :: unescapeLabel rest'
        else if n = 'n' then '\n' :: unescapeLabel rest'
        else c :: n :: unescapeLabel rest'
    else c :: unescapeLabel rest

/-- `splitUnescaped`: split on a delimiter, skipping backslash pairs. -/
def splitUnescapedAux (delim : Char) : Str → Str → List Str
  | [], cur => [cur.reverse]
  | '\\' :: r :: rest, cur => splitUnescapedAux delim rest (r :: '\\' :: cur)
  | c :: rest, cur =>
    if c = delim then cur.reverse :: splitUnescapedAux delim rest []
    else splitUnescapedAux delim rest (c :: cur)

/-- `splitUnescaped(str, delim)` from `src/pack.ts`. -/
def splitUnescaped (s : Str) (delim : Char) : List Str :=
  splitUnescapedAux delim s []

/-- `findUnescaped`: index of the first unescaped occurrence of a
character (`none` models the source's `-1`). -/
def findUnescapedAux (c : Char) : Str → Option ℕ
  | [] => none
  | '\\' :: _ :: rest => (findUnescapedAux c rest).map (· + 2)
  | a :: rest => if a = c then some 0 else (findUnescapedAux c rest).map (· + 1)

/-- `findUnescaped(str, ch)` from `src/pack.ts`. -/
def findUnescaped (s : Str) (c : Char) : Option ℕ :=
  findUnescapedAux c s

/-! ## Decimal printing and parsing (`toFixed` / `Number` / `parseInt`) -/

/-- Decimal digit character. -/
def decDigitChar (d : ℕ) : Char := Char.ofNat (48 + d)

/-- Base-36 digit character (`0-9a-z`, as produced by
`Number.prototype.toString(36)`). -/
def b36DigitChar (d : ℕ) : Char :=
  if d < 10 then Char.ofNat (48 + d) else Char.ofNat (87 + d)

/-- Fueled digit printer (most significant digit first); the fuel only
bounds the recursion and `n + 1` is always sufficient. -/
def natToBaseAux (base : ℕ) (dc : ℕ → Char) : ℕ → ℕ → Str → Str
  | 0, _, acc => acc
  | f + 1, n, acc =>
    if n = 0 then acc else natToBaseAux base dc f (n / base) (dc (n % base) :: acc)

/-- Positional rendering of a natural number in the given base. -/
def natToBase (base : ℕ) (dc : ℕ → Char) (n : ℕ) : Str :=
  if n = 0 then [dc 0] else natToBaseAux base dc (n + 1) n []

/-- Decimal rendering of a natural number. -/
def natToDec (n : ℕ) : Str := natToBase 10 decDigitChar n

/-- Base-36 rendering (`idx.toString(36)` in the node table). -/
def natToBase36 (n : ℕ) : Str := natToBase 36 b36DigitChar n

/-- Value of a (decimal-)digit string, most significant digit first. -/
def natOfDigits (s : Str) : ℕ :=
  s.foldl (fun a c => 10 * a + (c.toNat - 48)) 0

/-- `Number.prototype.toFixed(p)` on a rational: the value scaled by
`10^p` is rounded to an integer (half-up via `⌊x + 1/2⌋`, computed on
numerator and denominator; for scores exactly representable at precision
`p` the rounding mode is immaterial) and printed with `p` decimals. -/
def toFixed (p : ℕ) (q : ℚ) : Str :=
  let m : ℤ := Int.fdiv (2 * q.num * (10 : ℤ) ^ p + (q.den : ℤ)) (2 * (q.den : ℤ))
  let a : ℕ := m.natAbs
  let sign : Str := if m < 0 then ['-'] else []
  if p = 0 then sign ++ natToDec a
  else
    let frac := natToDec (a % 10 ^ p)
    sign ++ natToDec (a / 10 ^ p) ++ ['.'] ++
      List.replicate (p - frac.length) '0' ++ frac

/-- Absolute-value part of `Number(...)` on `digits` or
`digits.digits` strings (other shapes give `0`, modelling `NaN` as `0`;
no theorem depends on that case). -/
def jsNumberAbs (s : Str) : ℚ :=
  match s.splitOn '.' with
  | [i] => if i ≠ [] ∧ i.all Char.isDigit then mkRat (natOfDigits i) 1 else 0
  | [i, f] =>
    if i.all Char.isDigit ∧ f.all Char.isDigit ∧ (i ≠ [] ∨ f ≠ []) then
      mkRat (natOfDigits i * 10 ^ f.length + natOfDigits f) (10 ^ f.length)
    else 0
  | _ => 0

/-- `Number(s)` on the strings the codec produces. -/
def jsNumber (s : Str) : ℚ :=
  if s.headD ' ' = '-' then -(jsNumberAbs (s.drop 1)) else jsNumberAbs s

/-- JavaScript whitespace (the characters relevant to `trim`/`parseInt`
here: space, tab, LF, CR, VT, FF). -/
def isJsWs (c : Char) : Bool :=
  c = ' ' ∨ c = '\t' ∨ c = '\n' ∨ c = '\r' ∨ c = '\x0b' ∨ c = '\x0c'

/-- `String.prototype.trim`. -/
def jsTrim (s : Str) : Str :=
  ((s.dropWhile isJsWs).reverse.dropWhile isJsWs).reverse

/-- Digit value in a given base for `parseInt` (case-insensitive
letters). -/
def jsDigitVal (base : ℕ) (c : Char) : Option ℕ :=
  let v :=
    if 48 ≤ c.toNat ∧ c.toNat ≤ 57 then some (c.toNat - 48)
    else if 97 ≤ c.toNat ∧ c.toNat ≤ 122 then some (c.toNat - 87)
    else if 65 ≤ c.toNat ∧ c.toNat ≤ 90 then some (c.toNat - 55)
    else none
  match v with
  | some d => if d < base then some d else none
  | none => none

/-- `parseInt(s, base)`: skip whitespace, optional sign, longest digit
run; `none` models `NaN`. -/
def jsParseInt (base : ℕ) (s : Str) : Option ℤ :=
  let s1 := s.dropWhile isJsWs
  let core : Str → Option ℤ := fun t =>
    let ds := t.takeWhile (fun c => (jsDigitVal base c).isSome)
    if ds = [] then none
    else some (ds.foldl (fun a c => (base : ℤ) * a + ((jsDigitVal base c).getD 0 : ℕ)) 0)
  if s1.headD ' ' = '-' then (core (s1.drop 1)).map (fun n => -n)
  else if s1.headD ' ' = '+' then core (s1.drop 1)
  else core s1

/-! ## The packer (`TriePacker` in `src/pack.ts`) -/

/-- A packing-trie node (`PackNode`): children map plus the entry
indices stored at this node. -/
inductive PackNode where
  | mk : List (Char × Str × PackNode) → List ℕ → PackNode

/-- Children of a `PackNode`. -/
def PackNode.children : PackNode → List (Char × Str × PackNode)
  | .mk c _ => c

/-- Entry indices of a `PackNode`. -/
def PackNode.entryIndices : PackNode → List ℕ
  | .mk _ e => e

/-- `Map.get` on a `PackNode` children map. -/
def packLookup : List (Char × Str × PackNode) → Char → Option (Str × PackNode)
  | [], _ => none
  | (k, lbl, n) :: t, c => if k = c then some (lbl, n) else packLookup t c

mutual

/-- `TriePacker.insertAt`: the same edge-splitting algorithm as
`RadixTrie.insertAt`, storing entry indices instead of entries. -/
def packInsertAt : PackNode → Str → ℕ → PackNode
  | .mk children idxs, [], i => .mk children (idxs ++ [i])
  | .mk children idxs, c :: rest, i =>
    match packLookup children c with
    | none => .mk (children ++ [(c, c :: rest, .mk [] [i])]) idxs
    | some _ => .mk (packInsertChildren children c rest i) idxs

/-- The matching-edge logic of `packInsertAt` on the children list. -/
def packInsertChildren : List (Char × Str × PackNode) → Char → Str → ℕ →
    List (Char × Str × PackNode)
  | [], c, rest, i => [(c, c :: rest, .mk [] [i])]
  | (k, label, child) :: t, c, rest, i =>
    if k = c then
      let tx := c :: rest
      let j := commonPrefixLen label tx
      if j = label.length then
        (k, label, packInsertAt child (tx.drop j) i) :: t
      else
        match label.drop j, tx.drop j with
        | lj :: ltail, [] =>
          (k, label.take j, .mk [(lj, lj :: ltail, child)] [i]) :: t
        | lj :: ltail, tj :: ttail =>
          (k, label.take j,
            .mk [(lj, lj :: ltail, child), (tj, tj :: ttail, .mk [] [i])] []) :: t
        | [], _ => (k, label, child) :: t
    else (k, label, child) :: packInsertChildren t c rest i

end

/-- `TriePacker.insert`: the packer always lowercases
(`text.toLowerCase()`), so packing-trie labels come from the normalized
text. -/
def packInsert (root : PackNode) (text : Str) (i : ℕ) : PackNode :=
  packInsertAt root (text.map Char.toLower) i

/-- The packing trie built by `packTrie`'s loop
`for i: packer.insert(entries[i].text, score, i)`. -/
def packRoot (entries : List Entry) : PackNode :=
  entries.enum.foldl (fun r p => packInsert r p.2.text p.1) (.mk [] [])

mutual

/-- Number of nodes of a packing trie (used as BFS fuel). -/
def packSize : PackNode → ℕ
  | .mk ch _ => 1 + packSizeList ch

/-- Total node count of a children list. -/
def packSizeList : List (Char × Str × PackNode) → ℕ
  | [] => 0
  | (_, _, n) :: t => packSize n + packSizeList t

end

/-- The child-sorting relation: `a[0].localeCompare(b[0])` on the
single-character keys, modelled as code-point order. -/
def kidLE (a b : Char × Str × PackNode) : Prop := a.1.toNat ≤ b.1.toNat

instance : DecidableRel kidLE := fun a b => by
  unfold kidLE
  infer_instance

/-- A node's children sorted by first character, as in
`[...node.children.entries()].sort(...)`. -/
def sortedKids (n : PackNode) : List (Char × Str × PackNode) :=
  List.insertionSort kidLE n.children

/-- Child descriptors of one node line; BFS assigns the sorted children
the consecutive indices `idx, idx+1, …` (the source keys its
`nodeIndexMap` by object identity, and on a tree BFS enqueue order gives
exactly these consecutive indices). -/
def encodeChildren : List (Char × Str × PackNode) → ℕ → Str
  | [], _ => []
  | (_, lbl, _) :: t, idx =>
    ('|' :: escapeLabel lbl ++ '>' :: natToBase36 idx) ++ encodeChildren t (idx + 1)

/-- One node-table line: entry indices (or `-`), then child
descriptors. -/
def encodeNode (n : PackNode) (firstChildIdx : ℕ) : Str :=
  (if n.entryIndices = [] then ['-']
   else List.intercalate [','] (n.entryIndices.map natToDec)) ++
    encodeChildren (sortedKids n) firstChildIdx

/-- The BFS loop of `TriePacker.pack`, emitting one line per node in
BFS order; `nextIdx` is the next unassigned BFS index.  The fuel only
bounds the loop and the tree's node count is always sufficient. -/
def bfsEncode : ℕ → List PackNode → ℕ → List Str
  | 0, _, _ => []
  | _ + 1, [], _ => []
  | fuel + 1, n :: rest, nextIdx =>
    encodeNode n nextIdx ::
      bfsEncode fuel (rest ++ (sortedKids n).map (fun x => x.2.2))
        (nextIdx + (sortedKids n).length)

/-- The section-separator line. -/
def dash3 : Str := ['-', '-', '-']

/-- The comma-joined score line (`entries.map(e => (e.score ?? 0)
.toFixed(precision)).join(',')`). -/
def scoreLine (entries : List Entry) (prec : ℕ) : Str :=
  List.intercalate [','] (entries.map (fun e => toFixed prec e.score))

/-- All lines of `TriePacker.pack`: header + texts, separator, scores,
separator, node table. -/
def packLines (entries : List Entry) (prec : ℕ) : List Str :=
  let root := packRoot entries
  ("PTRIE:1:CI".toList :: entries.map Entry.text) ++
    [dash3] ++ [scoreLine entries prec] ++ [dash3] ++
    bfsEncode (packSize root) [root] 1

/-- `packTrie(entries, options)` (`options.scorePrecision` passed
directly): `lines.join('\n')`. -/
def packTrie (entries : List Entry) (prec : ℕ) : Str :=
  List.intercalate ['\n'] (packLines entries prec)

/-! ## The parser (`parse` / `unpackTrie` in `src/pack.ts`) -/

/-- `packed.split('\n---\n')`, leftmost-match, returned as (first
section, remaining sections).  Lists shorter than the separator cannot
contain it. -/
def splitSections : Str → Str × List Str
  | [] => ([], [])
  | [c1] => ([c1], [])
  | [c1, c2] => ([c1, c2], [])
  | [c1, c2, c3] => ([c1, c2, c3], [])
  | [c1, c2, c3, c4] => ([c1, c2, c3, c4], [])
  | c1 :: c2 :: c3 :: c4 :: c5 :: rest =>
    if c1 = '\n' ∧ c2 = '-' ∧ c3 = '-' ∧ c4 = '-' ∧ c5 = '\n' then
      let p := splitSections rest
      ([], p.1 :: p.2)
    else
      let p := splitSections (c2 :: c3 :: c4 :: c5 :: rest)
      (c1 :: p.1, p.2)

/-- The section list produced by `packed.split('\n---\n')`. -/
def jsSplitSep (s : Str) : List Str :=
  (splitSections s).1 :: (splitSections s).2

/-- A parsed child descriptor (`{ label, childIndex }`); `none` models a
`NaN` index from `parseInt`. -/
structure ParsedNodeChild where
  label : Str
  childIndex : Option ℤ
deriving DecidableEq

/-- A parsed node-table line. -/
structure ParsedNode where
  entryIndices : List ℚ
  children : List ParsedNodeChild
deriving DecidableEq

/-- Parsing of one node line: segments split on unescaped `|`, entry
indices from the first segment, child descriptors (skipping segments
with no unescaped `>`) from the rest. -/
def parseNodeLine (line : Str) : ParsedNode :=
  let segments := splitUnescaped line '|'
  let entryPart := segments.headD []
  let entryIndices := if entryPart = ['-'] then [] else (entryPart.splitOn ',').map jsNumber
  let children := (segments.drop 1).filterMap (fun seg =>
    match findUnescaped seg '>' with
    | none => none
    | some i => some ⟨unescapeLabel (seg.take i), jsParseInt 36 (seg.drop (i + 1))⟩)
  ⟨entryIndices, children⟩

/-- The decode output (`ParsedTrie`). -/
structure ParsedTrie where
  version : ℤ
  caseSensitive : Bool
  entries : List Entry
deriving DecidableEq

/-- The entry-building loop of `parse`: for each text, the score at the
same position, defaulting to `0` when the score table is exhausted. -/
def buildEntries : List Str → List ℚ → List Entry
  | [], _ => []
  | t :: ts, ss => ⟨t, ss.headD 0⟩ :: buildEntries ts ss.tail

/-- `parse(packed)` from `src/pack.ts`.  Format errors are `Except.error`
(the source's synchronous `throw`), so no partial result exists.  The
parsed node table (`_nodes`) is computed as in the source and then, as in
the source, never used for the result. -/
def parse (packed : Str) : Except String ParsedTrie :=
  let sections := jsSplitSep packed
  if sections.length ≠ 3 then .error ("Invalid packed trie: wrong section count")
  else
    let headerLines := (sections.getD 0 []).splitOn '\n'
    let header := headerLines.headD []
    let headerParts := header.splitOn ':'
    if headerParts.headD [] ≠ "PTRIE".toList then .error ("Invalid packed trie: bad magic")
    else if jsParseInt 10 (headerParts.getD 1 []) ≠ some 1 then
      .error ("Unsupported packed trie version")
    else
      let caseSensitive := headerParts.getD 2 [] = "CS".toList
      let texts := headerLines.drop 1
      let scoreStr := jsTrim (sections.getD 1 [])
      let scores := if 0 < scoreStr.length then (scoreStr.splitOn ',').map jsNumber else []
      let nodeLines := ((sections.getD 2 []).splitOn '\n').filter (fun l => 0 < l.length)
      let _nodes := nodeLines.map parseNodeLine
      let entries := buildEntries texts scores
      .ok ⟨1, decide caseSensitive, entries⟩

/-- `unpackTrie(packed)`: parse, then replay the entries through
`RadixTrie.insert` with the decoded case-sensitivity flag. -/
def unpackTrie (packed : Str) : Except String RadixTrie :=
  match parse packed with
  | .error e => .error e
  | .ok parsed =>
    .ok (parsed.entries.foldl (fun t e => t.insert e.text e.score)
      (RadixTrie.mkEmpty parsed.caseSensitive))

/-! ## Basic facts about the comparator -/

theorem lexLe_total : ∀ a b : Str, lexLe a b = true ∨ lexLe b a = true
  | [], _ => Or.inl rfl
  | _ :: _, [] => Or.inr rfl
  | a :: as, b :: bs => by
    by_cases h1 : a.toNat < b.toNat
    · left
      simp [lexLe, h1]
    · by_cases h2 : b.toNat < a.toNat
      · right
        simp [lexLe, h2]
      · rcases lexLe_total as bs with h | h
        · left
          simpa [lexLe, h1, h2] using h
        · right
          simpa [lexLe, h1, h2] using h

theorem lexLe_trans : ∀ a b c : Str, lexLe a b = true → lexLe b c = true → lexLe a c = true
  | [], _, _, _, _ => rfl
  | a :: as, [], c, h, _ => by simp [lexLe] at h
  | a :: as, b :: bs, [], _, h => by simp [lexLe] at h
  | a :: as, b :: bs, c :: cs, hab, hbc => by
    by_cases h1 : a.toNat < b.toNat <;> by_cases h2 : b.toNat < c.toNat <;>
      by_cases h3 : b.toNat < a.toNat <;> by_cases h4 : c.toNat < b.toNat <;>
        simp [lexLe, h1, h2, h3, h4] at hab hbc ⊢ <;>
          first
          | omega
          | (have h5 : a.toNat = b.toNat := by omega
             have h6 : b.toNat = c.toNat := by omega
             simp [h5, h6]
             exact lexLe_trans as bs cs hab hbc)

instance : IsTotal Entry entryLE := by
  constructor
  intro a b
  unfold entryLE
  by_cases h : a.score = b.score
  · simp only [h, if_pos rfl, if_pos h.symm]
    exact lexLe_total a.text b.text
  · have h' : ¬b.score = a.score := fun hh => h hh.symm
    simp only [if_neg h, if_neg h']
    exact Ne.lt_or_lt h'

instance : IsTrans Entry entryLE := by
  constructor
  intro a b c hab hbc
  unfold entryLE at hab hbc ⊢
  by_cases h1 : a.score = b.score
  · rw [if_pos h1] at hab
    by_cases h2 : b.score = c.score
    · rw [if_pos h2] at hbc
      rw [if_pos (h1.trans h2)]
      exact lexLe_trans _ _ _ hab hbc
    · rw [if_neg h2] at hbc
      rw [if_neg (fun hh : a.score = c.score => h2 (h1.symm.trans hh))]
      rw [h1]
      exact hbc
  · rw [if_neg h1] at hab
    by_cases h2 : b.score = c.score
    · rw [if_pos h2] at hbc
      rw [if_neg (fun hh : a.score = c.score => h1 (hh.trans h2.symm))]
      rw [← h2]
      exact hab
    · rw [if_neg h2] at hbc
      have hlt : c.score < a.score := lt_trans hbc hab
      rw [if_neg (fun hh : a.score = c.score => lt_irrefl _ (hh ▸ hlt))]
      exact hlt

/-! ## Escaping lemmas -/

theorem escapeLabel_cons (c : Char) (s : Str) :
    escapeLabel (c :: s) = escapeChar c ++ escapeLabel s := by
  simp [escapeLabel]

theorem unescape_escapeChar (c : Char) (t : Str) :
    unescapeLabel (escapeChar c ++ t) = c :: unescapeLabel t := by
  by_cases h1 : c = '|'
  · subst h1
    simp [escapeChar, unescapeLabel]
  · by_cases h2 : c = '>'
    · subst h2
      simp [escapeChar, unescapeLabel]
    · by_cases h3 : c = '\\'
      · subst h3
        simp [escapeChar, unescapeLabel]
      · by_cases h4 : c = '\n'
        · subst h4
          simp [escapeChar, unescapeLabel]
        · simp only [escapeChar, if_neg h1, if_neg h2, if_neg h3, if_neg h4,
            List.singleton_append]
          rw [unescapeLabel.eq_def]
          simp [h3]

theorem unescape_escape (s : Str) : unescapeLabel (escapeLabel s) = s := by
  induction s with
  | nil => rfl
  | cons c t ih => rw [escapeLabel_cons, unescape_escapeChar, ih]

/-! ## Claim theorems: C6, C7, C8 -/

/-- C6. Escaping round trip: for every string `s`,
`unescapeLabel (escapeLabel s) = s`; `escapeLabel` works character-wise,
mapping exactly the structural delimiters `|`, `>`, `\` and newline to
two-character backslash sequences and passing every other character
through unchanged. -/
theorem c6_escaping_round_trip (s : Str) (c : Char)
    (h : c ∉ ['|', '>', '\\', '\n']) :
    unescapeLabel (escapeLabel s) = s ∧
    escapeLabel s = s.flatMap escapeChar ∧
    escapeChar c = [c] ∧
    escapeChar '|' = ['\\', '|'] ∧ escapeChar '>' = ['\\', '>'] ∧
    escapeChar '\\' = ['\\', '\\'] ∧ escapeChar '\n' = ['\\', 'n'] := by
  simp only [List.mem_cons, List.not_mem_nil, or_false, not_or] at h
  refine ⟨unescape_escape s, rfl, ?_, rfl, rfl, rfl, rfl⟩
  simp [escapeChar, h.1, h.2.1, h.2.2.1, h.2.2.2]

/-- Witness for C6 at a concrete label containing all delimiters. -/
theorem c6_escaping_round_trip_witness :
    unescapeLabel (escapeLabel ("a|b\\c\nd>e".toList)) = "a|b\\c\nd>e".toList ∧
    escapeChar 'x' = ['x'] := by
  have h := c6_escaping_round_trip ("a|b\\c\nd>e".toList) 'x' (by decide)
  exact ⟨h.1, h.2.2.1⟩

/-- C7. Sorting law and truncation: every `search` result is sorted by
the comparator (score descending, ties by ascending text comparison on
the original casing) and its length is at most `limit`. -/
theorem c7_sorting_law_and_truncation (tr : RadixTrie) (pre : Str) (limit : ℕ) :
    List.Sorted entryLE (tr.search pre limit) ∧ (tr.search pre limit).length ≤ limit := by
  unfold RadixTrie.search
  cases findPrefixNode tr.root (jsNormalize tr.caseSensitive pre) with
  | none => simp
  | some n =>
    constructor
    · exact List.Pairwise.sublist (List.take_sublist _ _)
        (List.sorted_insertionSort entryLE (collectAll n))
    · exact List.length_take_le _ _

/-- C8. Edge-splitting scenario: inserting `"car"`, `"card"`, `"cart"`
into a fresh default trie gives node count 4; searching `"car"` and
`"ca"` each return all three entries; searching `"cars"` returns
nothing. -/
theorem c8_edge_splitting_scenario :
    (RadixTrie.fromStrings ["car".toList, "card".toList, "cart".toList]).nodeCount = 4 ∧
    (RadixTrie.fromStrings ["car".toList, "card".toList, "cart".toList]).search
        ("car".toList) 10 =
      [⟨"car".toList, 0⟩, ⟨"card".toList, 0⟩, ⟨"cart".toList, 0⟩] ∧
    (RadixTrie.fromStrings ["car".toList, "card".toList, "cart".toList]).search
        ("ca".toList) 10 =
      [⟨"car".toList, 0⟩, ⟨"card".toList, 0⟩, ⟨"cart".toList, 0⟩] ∧
    (RadixTrie.fromStrings ["car".toList, "card".toList, "cart".toList]).search
        ("cars".toList) 10 = [] := by
  refine ⟨by decide, by decide, by decide, by decide⟩

/-! ## The structural invariant of the radix trie (C9) -/

mutual

/-- Number of nodes of a radix trie, used as an induction measure. -/
def nsize : RadixNode → ℕ
  | .mk ch _ => 1 + nsizeL ch

/-- Total node count of a children list. -/
def nsizeL : List (Char × Str × RadixNode) → ℕ
  | [] => 0
  | (_, _, n) :: t => nsize n + nsizeL t

end

theorem nsize_le_of_mem :
    ∀ (ch : List (Char × Str × RadixNode)), ∀ p ∈ ch, nsize p.2.2 ≤ nsizeL ch
  | [], p, hp => absurd hp (List.not_mem_nil p)
  | (k, l, n) :: t, p, hp => by
    rcases List.mem_cons.mp hp with h | h
    · subst h
      simp [nsizeL]
    · have := nsize_le_of_mem t p h
      simp [nsizeL]
      omega

/-- The label part of the structural invariant for one child: the edge
label is non-empty and starts with the key under which it is stored. -/
def childLabelOK (p : Char × Str × RadixNode) : Prop :=
  p.2.1 ≠ [] ∧ p.2.1.head? = some p.1

/-- The structural invariant: every edge label satisfies
`childLabelOK`, no two sibling edges share a key, and the invariant
holds recursively. -/
inductive NodeInv : RadixNode → Prop where
  | intro : ∀ children entries,
      (∀ p ∈ children, childLabelOK p) →
      (∀ p ∈ children, NodeInv p.2.2) →
      (children.map Prod.fst).Nodup →
      NodeInv (.mk children entries)

theorem NodeInv.labels {ch es} (h : NodeInv (.mk ch es)) :
    ∀ p ∈ ch, childLabelOK p := by
  cases h
  assumption

theorem NodeInv.kids {ch es} (h : NodeInv (.mk ch es)) :
    ∀ p ∈ ch, NodeInv p.2.2 := by
  cases h
  assumption

theorem NodeInv.keys_nodup {ch es} (h : NodeInv (.mk ch es)) :
    (ch.map Prod.fst).Nodup := by
  cases h
  assumption

theorem commonPrefixLen_le_left : ∀ a b : Str, commonPrefixLen a b ≤ a.length
  | [], _ => by simp [commonPrefixLen]
  | _ :: _, [] => by simp [commonPrefixLen]
  | a :: as, b :: bs => by
    by_cases h : a = b
    · have := commonPrefixLen_le_left as bs
      simp only [commonPrefixLen, if_pos h, List.length_cons]
      omega
    · simp [commonPrefixLen, h]

theorem commonPrefixLen_mismatch :
    ∀ (a b : Str) (x y : Char) (xs ys : Str),
      a.drop (commonPrefixLen a b) = x :: xs → b.drop (commonPrefixLen a b) = y :: ys →
      x ≠ y
  | [], _, _, _, _, _, ha, _ => by simp [commonPrefixLen] at ha
  | _ :: _, [], _, _, _, _, _, hb => by simp [commonPrefixLen] at hb
  | a :: as, b :: bs, x, y, xs, ys, ha, hb => by
    by_cases h : a = b
    · rw [show commonPrefixLen (a :: as) (b :: bs) = commonPrefixLen as bs + 1 from by
        simp [commonPrefixLen, h]] at ha hb
      simp only [List.drop_succ_cons] at ha hb
      exact commonPrefixLen_mismatch as bs x y xs ys ha hb
    · rw [show commonPrefixLen (a :: as) (b :: bs) = 0 from by
        simp [commonPrefixLen, h]] at ha hb
      simp only [List.drop_zero] at ha hb
      cases ha
      cases hb
      exact h

theorem lookupEdge_none_not_mem {ch : List (Char × Str × RadixNode)} {c : Char}
    (h : lookupEdge ch c = none) : c ∉ ch.map Prod.fst := by
  induction ch with
  | nil => simp
  | cons p t ih =>
    obtain ⟨k, l, n⟩ := p
    by_cases hk : k = c
    · simp [lookupEdge, hk] at h
    · simp only [lookupEdge, if_neg hk] at h
      simp only [List.map_cons, List.mem_cons]
      rintro (h' | h')
      · exact hk h'.symm
      · exact ih h h'

theorem insertChildren_spec (c : Char) (rest : Str) (e : Entry) :
    ∀ children : List (Char × Str × RadixNode),
      (∀ p ∈ children, ∀ r2 (e2 : Entry), NodeInv p.2.2 → NodeInv (insertAt p.2.2 r2 e2).1) →
      (∀ p ∈ children, childLabelOK p) →
      (∀ p ∈ children, NodeInv p.2.2) →
      (∀ p ∈ (insertChildren children c rest e).1, childLabelOK p) ∧
      (∀ p ∈ (insertChildren children c rest e).1, NodeInv p.2.2) ∧
      ((insertChildren children c rest e).1.map Prod.fst = children.map Prod.fst ∨
        ((insertChildren children c rest e).1.map Prod.fst =
            children.map Prod.fst ++ [c] ∧ c ∉ children.map Prod.fst)) := by
  intro children
  induction children with
  | nil =>
    intro _ _ _
    refine ⟨?_, ?_, Or.inr ⟨rfl, by simp⟩⟩
    · intro p hp
      simp only [insertChildren, List.mem_singleton] at hp
      subst hp
      exact ⟨by simp, by simp⟩
    · intro p hp
      simp only [insertChildren, List.mem_singleton] at hp
      subst hp
      exact NodeInv.intro [] [e] (by simp) (by simp) (by simp)
  | cons q t ih =>
    intro hIH hlab hkid
    obtain ⟨k, label, child⟩ := q
    have hqlab := hlab (k, label, child) (List.mem_cons_self _ _)
    have hqkid := hkid (k, label, child) (List.mem_cons_self _ _)
    by_cases hk : k = c
    · -- the matching edge
      subst hk
      have hlabel : label = k :: label.tail := by
        rcases hx : label with _ | ⟨x, xs⟩
        · exact absurd hx hqlab.1
        · have h2 := hqlab.2
          rw [hx] at h2
          simp only [List.head?_cons, Option.some.injEq] at h2
          simp [h2]
      by_cases hj : commonPrefixLen label (k :: rest) = label.length
      · -- full edge match: recurse into the child
        simp only [insertChildren, if_pos rfl, hj, if_pos rfl]
        refine ⟨?_, ?_, Or.inl (by simp)⟩
        · intro p hp
          rcases List.mem_cons.mp hp with h | h
          · subst h
            exact hqlab
          · exact hlab p (List.mem_cons_of_mem _ h)
        · intro p hp
          rcases List.mem_cons.mp hp with h | h
          · subst h
            exact hIH (k, label, child) (List.mem_cons_self _ _) _ _ hqkid
          · exact hkid p (List.mem_cons_of_mem _ h)
      · -- split
        have hjpos : 0 < commonPrefixLen label (k :: rest) := by
          rw [show commonPrefixLen label (k :: rest)
              = commonPrefixLen (k :: label.tail) (k :: rest) from by rw [← hlabel]]
          simp [commonPrefixLen]
        have hjlt : commonPrefixLen label (k :: rest) < label.length :=
          lt_of_le_of_ne (commonPrefixLen_le_left _ _) hj
        rcases hd1 : label.drop (commonPrefixLen label (k :: rest)) with _ | ⟨lj, ltail⟩
        · exfalso
          rw [List.drop_eq_nil_iff] at hd1
          omega
        · have htake : (label.take (commonPrefixLen label (k :: rest))).head? = some k := by
            obtain ⟨m, hm⟩ : ∃ m, commonPrefixLen label (k :: rest) = m + 1 :=
              ⟨_, (Nat.succ_pred_eq_of_pos hjpos).symm⟩
            rw [hm]
            conv_lhs => rw [hlabel]
            simp
          have htakene : label.take (commonPrefixLen label (k :: rest)) ≠ [] := by
            intro hnil
            rcases List.take_eq_nil_iff.mp hnil with h | h
            · omega
            · rw [h] at hjlt
              simp at hjlt
          rcases hd2 : (k :: rest).drop (commonPrefixLen label (k :: rest))
            with _ | ⟨tj, ttail⟩
          · -- insert ends at the split point
            simp only [insertChildren, if_pos rfl, if_neg hj, hd1, hd2]
            refine ⟨?_, ?_, Or.inl (by simp)⟩
            · intro p hp
              rcases List.mem_cons.mp hp with h | h
              · subst h
                exact ⟨htakene, htake⟩
              · exact hlab p (List.mem_cons_of_mem _ h)
            · intro p hp
              rcases List.mem_cons.mp hp with h | h
              · subst h
                refine NodeInv.intro _ _ ?_ ?_ (by simp)
                · intro p hp
                  simp only [List.mem_singleton] at hp
                  subst hp
                  exact ⟨by simp, by simp⟩
                · intro p hp
                  simp only [List.mem_singleton] at hp
                  subst hp
                  exact hqkid
              · exact hkid p (List.mem_cons_of_mem _ h)
          · -- insert continues past the split: two new edges
            have hne : lj ≠ tj :=
              commonPrefixLen_mismatch label (k :: rest) lj tj ltail ttail hd1 hd2
            simp only [insertChildren, if_pos rfl, if_neg hj, hd1, hd2]
            refine ⟨?_, ?_, Or.inl (by simp)⟩
            · intro p hp
              rcases List.mem_cons.mp hp with h | h
              · subst h
                exact ⟨htakene, htake⟩
              · exact hlab p (List.mem_cons_of_mem _ h)
            · intro p hp
              rcases List.mem_cons.mp hp with h | h
              · subst h
                refine NodeInv.intro _ _ ?_ ?_ (by simp [hne])
                · intro p hp
                  rcases List.mem_cons.mp hp with h | h
                  · subst h
                    exact ⟨by simp, by simp⟩
                  · simp only [List.mem_singleton] at h
                    subst h
                    exact ⟨by simp, by simp⟩
                · intro p hp
                  rcases List.mem_cons.mp hp with h | h
                  · subst h
                    exact hqkid
                  · simp only [List.mem_singleton] at h
                    subst h
                    exact NodeInv.intro [] [e] (by simp) (by simp) (by simp)
              · exact hkid p (List.mem_cons_of_mem _ h)
    · -- not this edge: keep it and recurse along the list
      have ht := ih (fun p hp => hIH p (List.mem_cons_of_mem _ hp))
        (fun p hp => hlab p (List.mem_cons_of_mem _ hp))
        (fun p hp => hkid p (List.mem_cons_of_mem _ hp))
      simp only [insertChildren, if_neg hk]
      refine ⟨?_, ?_, ?_⟩
      · intro p hp
        rcases List.mem_cons.mp hp with h | h
        · subst h
          exact hqlab
        · exact ht.1 p h
      · intro p hp
        rcases List.mem_cons.mp hp with h | h
        · subst h
          exact hqkid
        · exact ht.2.1 p h
      · rcases ht.2.2 with h | ⟨h, hc⟩
        · left
          simp [h]
        · right
          constructor
          · simp [h]
          · simp only [List.map_cons, List.mem_cons]
            rintro (h' | h')
            · exact hk h'.symm
            · exact hc h'

theorem insertAt_inv :
    ∀ (sz : ℕ) (n : RadixNode), nsize n ≤ sz → NodeInv n →
      ∀ (rest : Str) (e : Entry), NodeInv (insertAt n rest e).1 := by
  intro sz
  induction sz with
  | zero =>
    intro n hsz
    obtain ⟨ch, es⟩ := n
    simp [nsize] at hsz
  | succ sz ih =>
    intro n hsz hinv rest e
    obtain ⟨children, entries⟩ := n
    cases rest with
    | nil =>
      simp only [insertAt]
      exact NodeInv.intro _ _ hinv.labels hinv.kids hinv.keys_nodup
    | cons c rest' =>
      cases hl : lookupEdge children c with
      | none =>
        simp only [insertAt, hl]
        refine NodeInv.intro _ _ ?_ ?_ ?_
        · intro p hp
          rcases List.mem_append.mp hp with h | h
          · exact hinv.labels p h
          · simp only [List.mem_singleton] at h
            subst h
            exact ⟨by simp, by simp⟩
        · intro p hp
          rcases List.mem_append.mp hp with h | h
          · exact hinv.kids p h
          · simp only [List.mem_singleton] at h
            subst h
            exact NodeInv.intro [] [e] (by simp) (by simp) (by simp)
        · rw [List.map_append]
          refine List.Nodup.append hinv.keys_nodup (by simp) ?_
          intro a ha hb
          simp only [List.map_cons, List.map_nil, List.mem_singleton] at hb
          subst hb
          exact lookupEdge_none_not_mem hl ha
      | some pr =>
        simp only [insertAt, hl]
        have hIH : ∀ p ∈ children, ∀ r2 (e2 : Entry),
            NodeInv p.2.2 → NodeInv (insertAt p.2.2 r2 e2).1 := by
          intro p hp r2 e2 hpinv
          refine ih p.2.2 ?_ hpinv r2 e2
          have h1 := nsize_le_of_mem children p hp
          simp only [nsize] at hsz
          omega
        have hspec := insertChildren_spec c rest' e children hIH hinv.labels hinv.kids
        refine NodeInv.intro _ _ hspec.1 hspec.2.1 ?_
        rcases hspec.2.2 with h | ⟨h, hc⟩
        · rw [h]
          exact hinv.keys_nodup
        · rw [h]
          refine List.Nodup.append hinv.keys_nodup (by simp) ?_
          intro a ha hb
          simp only [List.mem_singleton] at hb
          subst hb
          exact hc ha

theorem build_inv (ops : List (Str × ℚ)) :
    ∀ tr : RadixTrie, NodeInv tr.root →
      NodeInv ((ops.foldl (fun t p => t.insert p.1 p.2) tr).root) := by
  induction ops with
  | nil => intro tr h; exact h
  | cons op t ih =>
    intro tr h
    refine ih _ ?_
    exact insertAt_inv (nsize tr.root) tr.root le_rfl h _ _

/-- C9. Structural invariant preserved by every insert: after any
sequence of `insert` calls on a fresh trie, every edge label is
non-empty and starts with its key in the parent's child map, and no two
sibling edges share a (normalized) first character; in particular every
edge split produced two non-empty labels, since both halves are edges of
the resulting trie. -/
theorem c9_structural_invariant (cs : Bool) (ops : List (Str × ℚ)) :
    NodeInv ((ops.foldl (fun t p => t.insert p.1 p.2) (RadixTrie.mkEmpty cs)).root) := by
  refine build_inv ops _ ?_
  exact NodeInv.intro [] [] (by simp) (by simp) (by simp)

/-! ## Packing-trie labels are normalized (C5) -/

theorem char_toNat_ofNat {n : ℕ} (h : n < 55296) : (Char.ofNat n).toNat = n := by
  unfold Char.ofNat
  rw [dif_pos (Or.inl h : n.isValidChar)]
  rfl

theorem toLower_idem (c : Char) : c.toLower.toLower = c.toLower := by
  unfold Char.toLower
  by_cases h : c.toNat ≥ 65 ∧ c.toNat ≤ 90
  · rw [if_pos h]
    have hv : (Char.ofNat (c.toNat + 32)).toNat = c.toNat + 32 :=
      char_toNat_ofNat (by omega)
    rw [hv, if_neg (by omega)]
  · rw [if_neg h, if_neg h]

/-- A string invariant under character-wise lowercasing. -/
def LowerStr (l : Str) : Prop := l.map Char.toLower = l

theorem lowerStr_map (t : Str) : LowerStr (t.map Char.toLower) := by
  unfold LowerStr
  rw [List.map_map]
  exact List.map_congr_left (fun c _ => toLower_idem c)

theorem LowerStr.take {l : Str} (h : LowerStr l) (j : ℕ) : LowerStr (l.take j) := by
  unfold LowerStr at *
  rw [List.map_take, h]

theorem LowerStr.drop {l : Str} (h : LowerStr l) (j : ℕ) : LowerStr (l.drop j) := by
  unfold LowerStr at *
  rw [List.map_drop, h]

/-- The labels-are-normalized invariant of the packing trie. -/
inductive PackLower : PackNode → Prop where
  | intro : ∀ children idxs,
      (∀ p ∈ children, LowerStr p.2.1) →
      (∀ p ∈ children, PackLower p.2.2) →
      PackLower (.mk children idxs)

theorem PackLower.plabels {ch es} (h : PackLower (.mk ch es)) :
    ∀ p ∈ ch, LowerStr p.2.1 := by
  cases h
  assumption

theorem PackLower.pkids {ch es} (h : PackLower (.mk ch es)) :
    ∀ p ∈ ch, PackLower p.2.2 := by
  cases h
  assumption

theorem packSize_le_of_mem :
    ∀ (ch : List (Char × Str × PackNode)), ∀ p ∈ ch, packSize p.2.2 ≤ packSizeList ch
  | [], p, hp => absurd hp (List.not_mem_nil p)
  | (k, l, n) :: t, p, hp => by
    rcases List.mem_cons.mp hp with h | h
    · subst h
      simp [packSizeList]
    · have := packSize_le_of_mem t p h
      simp [packSizeList]
      omega

theorem packInsertChildren_lower (c : Char) (rest : Str) (i : ℕ)
    (hlow : LowerStr (c :: rest)) :
    ∀ children : List (Char × Str × PackNode),
      (∀ p ∈ children, ∀ r2 i2, LowerStr r2 → PackLower p.2.2 →
        PackLower (packInsertAt p.2.2 r2 i2)) →
      (∀ p ∈ children, LowerStr p.2.1) →
      (∀ p ∈ children, PackLower p.2.2) →
      (∀ p ∈ packInsertChildren children c rest i, LowerStr p.2.1) ∧
      (∀ p ∈ packInsertChildren children c rest i, PackLower p.2.2) := by
  intro children
  induction children with
  | nil =>
    intro _ _ _
    constructor
    · intro p hp
      simp only [packInsertChildren, List.mem_singleton] at hp
      subst hp
      exact hlow
    · intro p hp
      simp only [packInsertChildren, List.mem_singleton] at hp
      subst hp
      exact PackLower.intro [] [i] (by simp) (by simp)
  | cons q t ih =>
    intro hIH hlab hkid
    obtain ⟨k, label, child⟩ := q
    have hqlab := hlab (k, label, child) (List.mem_cons_self _ _)
    have hqkid := hkid (k, label, child) (List.mem_cons_self _ _)
    by_cases hk : k = c
    · subst hk
      by_cases hj : commonPrefixLen label (k :: rest) = label.length
      · simp only [packInsertChildren, if_pos rfl, hj, if_pos rfl]
        constructor
        · intro p hp
          rcases List.mem_cons.mp hp with h | h
          · subst h
            exact hqlab
          · exact hlab p (List.mem_cons_of_mem _ h)
        · intro p hp
          rcases List.mem_cons.mp hp with h | h
          · subst h
            exact hIH (k, label, child) (List.mem_cons_self _ _) _ _
              (hlow.drop _) hqkid
          · exact hkid p (List.mem_cons_of_mem _ h)
      · rcases hd1 : label.drop (commonPrefixLen label (k :: rest)) with _ | ⟨lj, ltail⟩
        · -- unreachable split shape: nothing new is created
          simp only [packInsertChildren, if_pos rfl, if_neg hj, hd1]
          rcases hd2 : (k :: rest).drop (commonPrefixLen label (k :: rest))
            with _ | ⟨tj, ttail⟩ <;>
            exact ⟨hlab, hkid⟩
        · have hlj : LowerStr (lj :: ltail) := hd1 ▸ hqlab.drop _
          rcases hd2 : (k :: rest).drop (commonPrefixLen label (k :: rest))
            with _ | ⟨tj, ttail⟩
          · simp only [packInsertChildren, if_pos rfl, if_neg hj, hd1, hd2]
            constructor
            · intro p hp
              rcases List.mem_cons.mp hp with h | h
              · subst h
                exact hqlab.take _
              · exact hlab p (List.mem_cons_of_mem _ h)
            · intro p hp
              rcases List.mem_cons.mp hp with h | h
              · subst h
                refine PackLower.intro _ _ ?_ ?_
                · intro p hp
                  simp only [List.mem_singleton] at hp
                  subst hp
                  exact hlj
                · intro p hp
                  simp only [List.mem_singleton] at hp
                  subst hp
                  exact hqkid
              · exact hkid p (List.mem_cons_of_mem _ h)
          · have htj : LowerStr (tj :: ttail) := hd2 ▸ hlow.drop _
            simp only [packInsertChildren, if_pos rfl, if_neg hj, hd1, hd2]
            constructor
            · intro p hp
              rcases List.mem_cons.mp hp with h | h
              · subst h
                exact hqlab.take _
              · exact hlab p (List.mem_cons_of_mem _ h)
            · intro p hp
              rcases List.mem_cons.mp hp with h | h
              · subst h
                refine PackLower.intro _ _ ?_ ?_
                · intro p hp
                  rcases List.mem_cons.mp hp with h | h
                  · subst h
                    exact hlj
                  · simp only [List.mem_singleton] at h
                    subst h
                    exact htj
                · intro p hp
                  rcases List.mem_cons.mp hp with h | h
                  · subst h
                    exact hqkid
                  · simp only [List.mem_singleton] at h
                    subst h
                    exact PackLower.intro [] [i] (by simp) (by simp)
              · exact hkid p (List.mem_cons_of_mem _ h)
    · have ht := ih (fun p hp => hIH p (List.mem_cons_of_mem _ hp))
        (fun p hp => hlab p (List.mem_cons_of_mem _ hp))
        (fun p hp => hkid p (List.mem_cons_of_mem _ hp))
      simp only [packInsertChildren, if_neg hk]
      constructor
      · intro p hp
        rcases List.mem_cons.mp hp with h | h
        · subst h
          exact hqlab
        · exact ht.1 p h
      · intro p hp
        rcases List.mem_cons.mp hp with h | h
        · subst h
          exact hqkid
        · exact ht.2 p h

theorem packInsertAt_lower :
    ∀ (sz : ℕ) (n : PackNode), packSize n ≤ sz → PackLower n →
      ∀ (rest : Str) (i : ℕ), LowerStr rest → PackLower (packInsertAt n rest i) := by
  intro sz
  induction sz with
  | zero =>
    intro n hsz
    obtain ⟨ch, es⟩ := n
    simp [packSize] at hsz
  | succ sz ih =>
    intro n hsz hinv rest i hlow
    obtain ⟨children, idxs⟩ := n
    cases rest with
    | nil =>
      simp only [packInsertAt]
      exact PackLower.intro _ _ hinv.plabels hinv.pkids
    | cons c rest' =>
      cases hl : packLookup children c with
      | none =>
        simp only [packInsertAt, hl]
        refine PackLower.intro _ _ ?_ ?_
        · intro p hp
          rcases List.mem_append.mp hp with h | h
          · exact hinv.plabels p h
          · simp only [List.mem_singleton] at h
            subst h
            exact hlow
        · intro p hp
          rcases List.mem_append.mp hp with h | h
          · exact hinv.pkids p h
          · simp only [List.mem_singleton] at h
            subst h
            exact PackLower.intro [] [i] (by simp) (by simp)
      | some pr =>
        simp only [packInsertAt, hl]
        have hIH : ∀ p ∈ children, ∀ r2 i2, LowerStr r2 → PackLower p.2.2 →
            PackLower (packInsertAt p.2.2 r2 i2) := by
          intro p hp r2 i2 hr2 hpinv
          refine ih p.2.2 ?_ hpinv r2 i2 hr2
          have h1 := packSize_le_of_mem children p hp
          simp only [packSize] at hsz
          omega
        have hspec := packInsertChildren_lower c rest' i hlow children hIH
          hinv.plabels hinv.pkids
        exact PackLower.intro _ _ hspec.1 hspec.2

theorem packRoot_lower (entries : List Entry) : PackLower (packRoot entries) := by
  unfold packRoot
  have hbase : PackLower (.mk [] []) := PackLower.intro [] [] (by simp) (by simp)
  generalize (PackNode.mk [] [] : PackNode) = r at hbase ⊢
  induction entries.enum generalizing r with
  | nil => exact hbase
  | cons p t ih =>
    simp only [List.foldl_cons]
    exact ih _ (packInsertAt_lower (packSize r) r le_rfl hbase _ _
      (lowerStr_map p.2.text))

/-! ## Section extractors used to state parser facts -/

/-- The text lines of a packed document: first section minus its header
line, exactly as `parse` computes them. -/
def textsOf (s : Str) : List Str :=
  (((jsSplitSep s).getD 0 []).splitOn '\n').drop 1

/-- The score list of a packed document, exactly as `parse` computes
it. -/
def scoresOf (s : Str) : List ℚ :=
  let scoreStr := jsTrim ((jsSplitSep s).getD 1 [])
  if 0 < scoreStr.length then (scoreStr.splitOn ',').map jsNumber else []

/-- The magic token of a packed document's header line. -/
def magicOf (s : Str) : Str :=
  (((((jsSplitSep s).getD 0 []).splitOn '\n').headD []).splitOn ':').headD []

/-- The parsed version field of a packed document's header line. -/
def versionTokenOf (s : Str) : Option ℤ :=
  jsParseInt 10 ((((((jsSplitSep s).getD 0 []).splitOn '\n').headD []).splitOn ':').getD 1 [])

theorem parse_ok_shape (s : Str) (t : ParsedTrie) (h : parse s = .ok t) :
    t.entries = buildEntries (textsOf s) (scoresOf s) ∧ t.version = 1 := by
  unfold parse at h
  by_cases h1 : (jsSplitSep s).length ≠ 3
  · rw [if_pos h1] at h
    cases h
  · rw [if_neg h1] at h
    simp only at h
    by_cases h2 :
        (((((jsSplitSep s).getD 0 []).splitOn '\n').headD []).splitOn ':').headD []
          ≠ "PTRIE".toList
    · rw [if_pos h2] at h
      cases h
    · rw [if_neg h2] at h
      by_cases h3 :
          jsParseInt 10
              ((((((jsSplitSep s).getD 0 []).splitOn '\n').headD []).splitOn ':').getD 1 [])
            ≠ some 1
      · rw [if_pos h3] at h
        cases h
      · rw [if_neg h3] at h
        cases h
        exact ⟨rfl, rfl⟩

theorem parse_error_of_sections (s : Str) (h : (jsSplitSep s).length ≠ 3) :
    (parse s).toOption = none := by
  unfold parse
  rw [if_pos h]
  rfl

/-! ## Claim theorems: C10, C3, C5, C4, and the C2 counterexample -/

/-- C10. Node-table noninterference: two packed documents that parse
successfully and agree on their first section (header and text lines)
and second section (score line) decode to the same entry list, whatever
their node-table sections contain — `parse` computes the node table but
never uses it for the result. -/
theorem c10_node_table_noninterference (s1 s2 : Str) (t1 t2 : ParsedTrie)
    (h1 : parse s1 = .ok t1) (h2 : parse s2 = .ok t2)
    (hsec0 : (jsSplitSep s1).getD 0 [] = (jsSplitSep s2).getD 0 [])
    (hsec1 : (jsSplitSep s1).getD 1 [] = (jsSplitSep s2).getD 1 []) :
    t1.entries = t2.entries := by
  rw [(parse_ok_shape s1 t1 h1).1, (parse_ok_shape s2 t2 h2).1]
  unfold textsOf scoresOf
  rw [hsec0, hsec1]

/-- Witness for C10: two documents identical except for their node
table decode to the same entries. -/
theorem c10_node_table_noninterference_witness :
    parse ("PTRIE:1:CI\nab\n---\n0.50\n---\n-|ab>1\n0".toList) =
      .ok ⟨1, false, [⟨"ab".toList, mkRat 1 2⟩]⟩ ∧
    parse ("PTRIE:1:CI\nab\n---\n0.50\n---\nzz9@@|garbage".toList) =
      .ok ⟨1, false, [⟨"ab".toList, mkRat 1 2⟩]⟩ ∧
    (⟨1, false, [⟨"ab".toList, mkRat 1 2⟩]⟩ : ParsedTrie).entries =
      (⟨1, false, [⟨"ab".toList, mkRat 1 2⟩]⟩ : ParsedTrie).entries := by
  refine ⟨by rfl, by rfl, ?_⟩
  exact c10_node_table_noninterference
    ("PTRIE:1:CI\nab\n---\n0.50\n---\n-|ab>1\n0".toList)
    ("PTRIE:1:CI\nab\n---\n0.50\n---\nzz9@@|garbage".toList)
    ⟨1, false, [⟨"ab".toList, mkRat 1 2⟩]⟩
    ⟨1, false, [⟨"ab".toList, mkRat 1 2⟩]⟩
    (by rfl) (by rfl) (by rfl) (by rfl)

/-- C3. Format errors are fatal and synchronous: whenever the packed
text has a section count other than the expected three, an unrecognized
magic token, or an unsupported version number, `parse` (and hence
`unpackTrie`) returns an error and no (partial) result. -/
theorem c3_format_errors_fatal (s : Str)
    (h : (jsSplitSep s).length ≠ 3 ∨ magicOf s ≠ "PTRIE".toList ∨
      versionTokenOf s ≠ some 1) :
    (parse s).toOption = none ∧ (unpackTrie s).toOption = none := by
  have hp : (parse s).toOption = none := by
    unfold parse
    by_cases h1 : (jsSplitSep s).length ≠ 3
    · rw [if_pos h1]
      rfl
    · rw [if_neg h1]
      simp only
      by_cases h2 :
          (((((jsSplitSep s).getD 0 []).splitOn '\n').headD []).splitOn ':').headD []
            ≠ "PTRIE".toList
      · rw [if_pos h2]
        rfl
      · rw [if_neg h2]
        by_cases h3 :
            jsParseInt 10
                ((((((jsSplitSep s).getD 0 []).splitOn '\n').headD []).splitOn ':').getD 1 [])
              ≠ some 1
        · rw [if_pos h3]
          rfl
        · exfalso
          rcases h with h | h | h
          · exact h1 h
          · exact h2 h
          · exact h3 h
  refine ⟨hp, ?_⟩
  unfold unpackTrie
  cases hc : parse s with
  | error e => rfl
  | ok t =>
    rw [hc] at hp
    cases hp

/-- Witness for C3 at a one-section document. -/
theorem c3_format_errors_fatal_witness :
    (jsSplitSep ("x".toList)).length ≠ 3 ∧ (parse ("x".toList)).toOption = none := by
  refine ⟨by decide, ?_⟩
  exact (c3_format_errors_fatal ("x".toList) (Or.inl (by decide))).1

/-- Counterexample to C5 as stated: the packer stores the edge label
for the first-inserted text `"Ab"` as the normalized `"ab"`, not in the
original casing. -/
theorem c5_counterexample :
    (packRoot [⟨"Ab".toList, 0⟩]).children.map (fun p => p.2.1) = [['a', 'b']] ∧
    (['a', 'b'] : Str) ≠ "Ab".toList := by
  exact ⟨by decide, by decide⟩

/-- C5 (amended). In the packing trie every edge label is stored in
normalized (lowercased) form, and display text is not recovered from
edge labels: the texts are emitted verbatim as the lines after the
header. -/
theorem c5_packing_labels_normalized (entries : List Entry) (prec : ℕ) :
    PackLower (packRoot entries) ∧
    (packLines entries prec).take (entries.length + 1) =
      "PTRIE:1:CI".toList :: entries.map Entry.text := by
  constructor
  · exact packRoot_lower entries
  · unfold packLines
    simp only [List.append_assoc]
    exact List.take_left' (by simp)

/-- Counterexample to C4 as stated: a singleton entry list whose only
score is `0`, yet the emitted document's score section is the line
`"0.00"` rather than being omitted. -/
theorem c4_counterexample :
    (∀ e ∈ [Entry.mk ("a".toList) 0], e.score = 0) ∧
    (jsSplitSep (packTrie [⟨"a".toList, 0⟩] 2)).getD 1 [] = "0.00".toList ∧
    ("0.00".toList : Str) ≠ [] := by
  exact ⟨by decide, by decide, by decide⟩

/-- C4 (amended). The score line is always emitted, for every entry
list: line `entries.length + 2` of the packed document (0-based, right
after the first separator) is the comma-joined rounded score list, also
when every score is `0`. -/
theorem c4_score_line_always_present (entries : List Entry) (prec : ℕ) :
    (packLines entries prec)[entries.length + 2]? = some (scoreLine entries prec) := by
  unfold packLines
  simp only [List.append_assoc, List.cons_append]
  rw [List.getElem?_cons_succ]
  rw [List.getElem?_append_right (by simp)]
  simp

/-- Counterexample to C2 as stated: the emitted header declares format
version `1`, not `2`; the emitted document has three sections, not two;
and a two-section document is rejected by the parser rather than decoded
as the current format. -/
theorem c2_counterexample :
    versionTokenOf (packTrie [⟨"a".toList, 0⟩] 2) = some 1 ∧
    (some (1 : ℤ) : Option ℤ) ≠ some 2 ∧
    (jsSplitSep (packTrie [⟨"a".toList, 0⟩] 2)).length = 3 ∧
    (3 : ℕ) ≠ 2 ∧
    (parse ("PTRIE:2:CI\n---\n-".toList)).toOption = none ∧
    (jsSplitSep ("PTRIE:2:CI\n---\n-".toList)).length = 2 := by
  exact ⟨by decide, by decide, by decide, by decide, by decide, by decide⟩

/-! ## How `split('\n---\n')` behaves on well-formed line lists -/

/-- A line that can appear inside a section: no embedded newline and not
the separator line itself. -/
def okLine (l : Str) : Prop := '\n' ∉ l ∧ l ≠ dash3

/-- `s` starts with `---` followed by a newline (the tail of the
section separator). -/
def dashNlPre (s : Str) : Prop := ∃ w, s = '-' :: '-' :: '-' :: '\n' :: w

theorem splitSections_short (s : Str) (h : s.length ≤ 4) : splitSections s = (s, []) := by
  rcases s with _ | ⟨a, _ | ⟨b, _ | ⟨c, _ | ⟨d, _ | ⟨e, t⟩⟩⟩⟩⟩ <;>
    first
    | rfl
    | (simp at h)

theorem splitSections_cons {c : Char} (t : Str) (h : c ≠ '\n') :
    splitSections (c :: t) = (c :: (splitSections t).1, (splitSections t).2) := by
  rcases t with _ | ⟨a, _ | ⟨b, _ | ⟨d, _ | ⟨e, t5⟩⟩⟩⟩
  · rfl
  · rfl
  · rfl
  · rfl
  · rw [splitSections]
    rw [if_neg (by simp [h])]

theorem splitSections_sep (rest : Str) :
    splitSections ('\n' :: '-' :: '-' :: '-' :: '\n' :: rest) =
      ([], (splitSections rest).1 :: (splitSections rest).2) := by
  rw [splitSections]
  rw [if_pos (by simp)]

theorem splitSections_nl {t : Str} (h : ¬dashNlPre t) :
    splitSections ('\n' :: t) = ('\n' :: (splitSections t).1, (splitSections t).2) := by
  rcases t with _ | ⟨a, _ | ⟨b, _ | ⟨d, _ | ⟨e, t5⟩⟩⟩⟩
  · rfl
  · rfl
  · rfl
  · rfl
  · rw [splitSections]
    rw [if_neg ?_]
    rintro ⟨-, h1, h2, h3, h4⟩
    exact h ⟨t5, by simp [h1, h2, h3, h4]⟩

theorem okLine_no_dashNlPre {l t : Str} (hok : okLine l)
    (ht : t = [] ∨ ∃ t', t = '\n' :: t') : ¬dashNlPre (l ++ t) := by
  rintro ⟨w, hw⟩
  rcases l with _ | ⟨a, _ | ⟨b, _ | ⟨c, _ | ⟨d, l5⟩⟩⟩⟩
  · rcases ht with rfl | ⟨t', rfl⟩ <;> simp at hw
  · rcases ht with rfl | ⟨t', rfl⟩ <;> simp at hw
  · rcases ht with rfl | ⟨t', rfl⟩ <;> simp at hw
  · rcases ht with rfl | ⟨t', rfl⟩
    · simp at hw
    · simp only [List.cons_append, List.nil_append, List.cons.injEq] at hw
      obtain ⟨h1, h2, h3, -⟩ := hw
      subst h1
      subst h2
      subst h3
      exact hok.2 rfl
  · simp only [List.cons_append, List.cons.injEq] at hw
    obtain ⟨-, -, -, h4, -⟩ := hw
    subst h4
    exact hok.1 (by simp)

theorem splitSections_line {x : Str} (hx : '\n' ∉ x) (r : Str) :
    splitSections (x ++ r) = (x ++ (splitSections r).1, (splitSections r).2) := by
  induction x with
  | nil => simp
  | cons c t ih =>
    have hc : c ≠ '\n' := fun h => hx (h ▸ List.mem_cons_self c t)
    have ht : '\n' ∉ t := fun h => hx (List.mem_cons_of_mem c h)
    rw [List.cons_append, splitSections_cons _ hc, ih ht]
    simp

theorem intercalate_single (x : Str) : List.intercalate ['\n'] [x] = x := by
  simp [List.intercalate]

theorem intercalate_cons₂ (x y : Str) (t : List Str) :
    List.intercalate ['\n'] (x :: y :: t) =
      x ++ '\n' :: List.intercalate ['\n'] (y :: t) := by
  simp [List.intercalate, List.intersperse]

/-- A joined line list starting with an in-section line never begins
with the separator tail `---\n`. -/
theorem intercalate_head_no_dashNlPre {l : Str} (hl : okLine l) (rest : List Str) :
    ¬dashNlPre (List.intercalate ['\n'] (l :: rest)) := by
  rcases rest with _ | ⟨r0, rest'⟩
  · rw [intercalate_single]
    have := okLine_no_dashNlPre hl (Or.inl rfl)
    simpa using this
  · rw [intercalate_cons₂]
    exact okLine_no_dashNlPre hl (Or.inr ⟨_, rfl⟩)

/-- Scanning a section whose lines are all in-section lines finds no
separator. -/
theorem splitSections_intercalate_ok :
    ∀ {C : List Str}, C ≠ [] → (∀ l ∈ C, okLine l) →
      splitSections (List.intercalate ['\n'] C) = (List.intercalate ['\n'] C, [])
  | [], hC, _ => absurd rfl hC
  | [c0], _, hok => by
    rw [intercalate_single]
    rw [show c0 = c0 ++ ([] : Str) from by simp]
    rw [splitSections_line (hok c0 (by simp)).1]
    simp [splitSections]
  | c0 :: c1 :: C'', _, hok => by
    rw [intercalate_cons₂]
    rw [splitSections_line (hok c0 (by simp)).1]
    rw [splitSections_nl
      (intercalate_head_no_dashNlPre (hok c1 (by simp)) C'')]
    rw [splitSections_intercalate_ok (by simp) (fun l hl => hok l (by simp [hl]))]

/-- Scanning a section followed by a separator line emits the section
and continues after the separator. -/
theorem splitSections_sections :
    ∀ {A : List Str}, A ≠ [] → (∀ l ∈ A, okLine l) → ∀ {M : List Str}, M ≠ [] →
      splitSections (List.intercalate ['\n'] (A ++ dash3 :: M)) =
        (List.intercalate ['\n'] A,
          (splitSections (List.intercalate ['\n'] M)).1 ::
            (splitSections (List.intercalate ['\n'] M)).2)
  | [], hA, _, _, _ => absurd rfl hA
  | [a], _, hokA, M, hM => by
    rcases M with _ | ⟨m0, M'⟩
    · exact absurd rfl hM
    · rw [show ([a] ++ dash3 :: m0 :: M') = a :: dash3 :: m0 :: M' from rfl]
      rw [intercalate_cons₂, intercalate_cons₂]
      rw [show a ++ '\n' :: (dash3 ++ '\n' :: List.intercalate ['\n'] (m0 :: M')) =
          a ++ '\n' :: '-' :: '-' :: '-' :: '\n' :: List.intercalate ['\n'] (m0 :: M') from by
        simp [dash3]]
      rw [splitSections_line (hokA a (by simp)).1]
      rw [splitSections_sep]
      rw [intercalate_single]
      simp
  | a :: a1 :: A'', _, hokA, M, hM => by
    rw [show ((a :: a1 :: A'') ++ dash3 :: M) = a :: a1 :: (A'' ++ dash3 :: M) from rfl]
    rw [intercalate_cons₂ a a1 (A'' ++ dash3 :: M)]
    rw [splitSections_line (hokA a (by simp)).1]
    rw [show List.intercalate ['\n'] (a1 :: (A'' ++ dash3 :: M)) =
        List.intercalate ['\n'] ((a1 :: A'') ++ dash3 :: M) from rfl]
    rw [splitSections_nl ?hpre]
    case hpre =>
      rw [show ((a1 :: A'') ++ dash3 :: M) = a1 :: (A'' ++ dash3 :: M) from rfl]
      exact intercalate_head_no_dashNlPre (hokA a1 (by simp)) (A'' ++ dash3 :: M)
    rw [splitSections_sections (by simp) (fun l hl => hokA l (by simp [hl])) hM]
    simp [intercalate_cons₂]

/-- The main splitting fact: a document made of three sections of
in-section lines, joined by separator lines, splits back into exactly
those three sections. -/
theorem jsSplitSep_three {A B C : List Str} (hA : A ≠ []) (hB : B ≠ []) (hC : C ≠ [])
    (hokA : ∀ l ∈ A, okLine l) (hokB : ∀ l ∈ B, okLine l) (hokC : ∀ l ∈ C, okLine l) :
    jsSplitSep (List.intercalate ['\n'] (A ++ dash3 :: (B ++ dash3 :: C))) =
      [List.intercalate ['\n'] A, List.intercalate ['\n'] B,
        List.intercalate ['\n'] C] := by
  unfold jsSplitSep
  rw [splitSections_sections hA hokA (by simp)]
  rw [splitSections_sections hB hokB hC]
  rw [splitSections_intercalate_ok hC hokC]

/-! ## Character-set facts about the emitted lines -/

theorem natToBaseAux_append (base : ℕ) (dc : ℕ → Char) :
    ∀ (f n : ℕ) (acc : Str),
      natToBaseAux base dc f n acc = natToBaseAux base dc f n [] ++ acc := by
  intro f
  induction f with
  | zero => intro n acc; rfl
  | succ f ih =>
    intro n acc
    by_cases h : n = 0
    · simp [natToBaseAux, h]
    · rw [natToBaseAux, natToBaseAux, if_neg h, if_neg h]
      rw [ih (n / base) (dc (n % base) :: acc), ih (n / base) [dc (n % base)]]
      simp

theorem natToBaseAux_chars (base : ℕ) (dc : ℕ → Char) (P : Char → Prop)
    (hb : 0 < base) (hdc : ∀ d, d < base → P (dc d)) :
    ∀ (f n : ℕ) (acc : Str), (∀ c ∈ acc, P c) →
      ∀ c ∈ natToBaseAux base dc f n acc, P c := by
  intro f
  induction f with
  | zero => intro n acc hacc; exact hacc
  | succ f ih =>
    intro n acc hacc c hc
    by_cases h : n = 0
    · rw [natToBaseAux, if_pos h] at hc
      exact hacc c hc
    · rw [natToBaseAux, if_neg h] at hc
      refine ih (n / base) _ ?_ c hc
      intro c' hc'
      rcases List.mem_cons.mp hc' with h' | h'
      · subst h'
        exact hdc _ (Nat.mod_lt _ hb)
      · exact hacc c' h'

theorem natToBase_chars (base : ℕ) (dc : ℕ → Char) (P : Char → Prop)
    (hb : 0 < base) (hdc : ∀ d, d < base → P (dc d)) (n : ℕ) :
    ∀ c ∈ natToBase base dc n, P c := by
  intro c hc
  unfold natToBase at hc
  by_cases h : n = 0
  · rw [if_pos h] at hc
    simp only [List.mem_singleton] at hc
    subst hc
    exact hdc 0 hb
  · rw [if_neg h] at hc
    exact natToBaseAux_chars base dc P hb hdc _ _ _ (by simp) c hc

theorem natToBase_ne_nil (base : ℕ) (dc : ℕ → Char) (n : ℕ) :
    natToBase base dc n ≠ [] := by
  unfold natToBase
  by_cases h : n = 0
  · simp [h]
  · rw [if_neg h]
    rw [show n + 1 = (n - 1) + 1 + 1 from by omega]
    rw [natToBaseAux, if_neg h]
    rw [natToBaseAux_append]
    simp

theorem decDigitChar_digit {d : ℕ} (h : d < 10) : (decDigitChar d).isDigit = true := by
  interval_cases d <;> decide

theorem b36DigitChar_ne_nl {d : ℕ} (h : d < 36) :
    b36DigitChar d ≠ '\n' ∧ b36DigitChar d ≠ '-' := by
  interval_cases d <;> exact ⟨by decide, by decide⟩

/-- Characters that can occur in a `toFixed` rendering. -/
def scoreChar (c : Char) : Prop := c.isDigit = true ∨ c = '-' ∨ c = '.'

theorem digit_facts {c : Char} (h : c.isDigit = true) :
    c ≠ '\n' ∧ c ≠ ',' ∧ isJsWs c = false := by
  have hn : 48 ≤ c.toNat ∧ c.toNat ≤ 57 := by
    unfold Char.isDigit at h
    simp only [decide_eq_true_eq, Bool.and_eq_true] at h
    exact ⟨h.1, h.2⟩
  refine ⟨?_, ?_, ?_⟩
  · intro he
    subst he
    simp at hn
  · intro he
    subst he
    simp at hn
  · unfold isJsWs
    simp only [decide_eq_false_iff_not, not_or]
    refine ⟨?_, ?_, ?_, ?_, ?_, ?_⟩ <;>
      (intro he; subst he; simp at hn)

theorem scoreChar_facts {c : Char} (h : scoreChar c) :
    c ≠ '\n' ∧ c ≠ ',' ∧ isJsWs c = false := by
  rcases h with h | h | h
  · exact digit_facts h
  · subst h
    exact ⟨by decide, by decide, by decide⟩
  · subst h
    exact ⟨by decide, by decide, by decide⟩

theorem toFixed_chars (p : ℕ) (q : ℚ) : ∀ c ∈ toFixed p q, scoreChar c := by
  intro c hc
  unfold toFixed at hc
  have hdec : ∀ x : ℕ, ∀ c' ∈ natToDec x, scoreChar c' := by
    intro x c' hc'
    exact Or.inl (natToBase_chars 10 decDigitChar (fun ch => ch.isDigit = true)
      (by norm_num) (fun d hd => decDigitChar_digit hd) x c' hc')
  have hsign : ∀ m : ℤ, ∀ c' ∈ (if m < 0 then ['-'] else ([] : Str)), scoreChar c' := by
    intro m c' hc'
    by_cases hm : m < 0
    · rw [if_pos hm] at hc'
      simp only [List.mem_singleton] at hc'
      subst hc'
      exact Or.inr (Or.inl rfl)
    · rw [if_neg hm] at hc'
      cases hc'
  by_cases hp : p = 0
  · rw [if_pos hp] at hc
    rcases List.mem_append.mp hc with h | h
    · exact hsign _ c h
    · exact hdec _ c h
  · rw [if_neg hp] at hc
    simp only [List.append_assoc, List.mem_append] at hc
    rcases hc with h | h | h | h | h
    · exact hsign _ c h
    · exact hdec _ c h
    · simp only [List.mem_singleton] at h
      subst h
      exact Or.inr (Or.inr rfl)
    · have := List.eq_of_mem_replicate h
      subst this
      exact Or.inl (by decide)
    · exact hdec _ c h

theorem toFixed_ne_nil (p : ℕ) (q : ℚ) : toFixed p q ≠ [] := by
  unfold toFixed
  by_cases hp : p = 0
  · rw [if_pos hp]
    intro h
    rcases List.append_eq_nil.mp h with ⟨-, h2⟩
    exact natToBase_ne_nil _ _ _ h2
  · rw [if_neg hp]
    intro h
    simp only [List.append_assoc, List.append_eq_nil] at h
    exact natToBase_ne_nil _ _ _ h.2.1

theorem toFixed_has_digit (p : ℕ) (q : ℚ) :
    ∃ c ∈ toFixed p q, c.isDigit = true := by
  unfold toFixed
  have hdig : ∀ x : ℕ, ∃ c ∈ natToDec x, c.isDigit = true := by
    intro x
    rcases hx : natToDec x with _ | ⟨c, cs⟩
    · exact absurd hx (natToBase_ne_nil _ _ _)
    · refine ⟨c, by simp, ?_⟩
      refine natToBase_chars 10 decDigitChar (fun ch => ch.isDigit = true)
        (by norm_num) (fun d hd => decDigitChar_digit hd) x c ?_
      rw [show natToBase 10 decDigitChar x = c :: cs from hx]
      simp
  by_cases hp : p = 0
  · rw [if_pos hp]
    obtain ⟨c, hc, hd⟩ := hdig _
    exact ⟨c, List.mem_append_right _ hc, hd⟩
  · rw [if_neg hp]
    obtain ⟨c, hc, hd⟩ := hdig _
    refine ⟨c, ?_, hd⟩
    simp only [List.append_assoc, List.mem_append]
    right
    left
    exact hc

theorem intercalate_comma_nil : List.intercalate [','] ([] : List Str) = [] := rfl

theorem intercalate_comma_single (x : Str) : List.intercalate [','] [x] = x := by
  simp [List.intercalate]

theorem intercalate_comma_cons₂ (x y : Str) (t : List Str) :
    List.intercalate [','] (x :: y :: t) =
      x ++ ',' :: List.intercalate [','] (y :: t) := by
  simp [List.intercalate, List.intersperse]

theorem mem_intercalate_comma :
    ∀ {parts : List Str} {c : Char}, c ∈ List.intercalate [','] parts →
      c = ',' ∨ ∃ p ∈ parts, c ∈ p := by
  intro parts
  induction parts with
  | nil => intro c hc; rw [intercalate_comma_nil] at hc; cases hc
  | cons x t ih =>
    intro c hc
    rcases t with _ | ⟨y, t'⟩
    · rw [intercalate_comma_single] at hc
      exact Or.inr ⟨x, by simp, hc⟩
    · rw [intercalate_comma_cons₂] at hc
      rcases List.mem_append.mp hc with h | h
      · exact Or.inr ⟨x, by simp, h⟩
      · rcases List.mem_cons.mp h with h' | h'
        · exact Or.inl h'
        · rcases ih h' with h'' | ⟨p, hp, hcp⟩
          · exact Or.inl h''
          · exact Or.inr ⟨p, by simp [hp], hcp⟩

theorem head_mem_intercalate_comma {x : Str} {t : List Str} {c : Char} (hc : c ∈ x) :
    c ∈ List.intercalate [','] (x :: t) := by
  rcases t with _ | ⟨y, t'⟩
  · rw [intercalate_comma_single]
    exact hc
  · rw [intercalate_comma_cons₂]
    exact List.mem_append_left _ hc

theorem scoreLine_okLine (entries : List Entry) (prec : ℕ) :
    okLine (scoreLine entries prec) ∧ (∀ c ∈ scoreLine entries prec, isJsWs c = false) := by
  have hchars : ∀ c ∈ scoreLine entries prec, c = ',' ∨ scoreChar c := by
    intro c hc
    unfold scoreLine at hc
    rcases mem_intercalate_comma hc with h | ⟨p, hp, hcp⟩
    · exact Or.inl h
    · simp only [List.mem_map] at hp
      obtain ⟨e, -, rfl⟩ := hp
      exact Or.inr (toFixed_chars _ _ c hcp)
  have hnl : '\n' ∉ scoreLine entries prec := by
    intro h
    rcases hchars '\n' h with h' | h'
    · exact absurd h' (by decide)
    · exact absurd rfl (scoreChar_facts h').1
  refine ⟨⟨hnl, ?_⟩, ?_⟩
  · intro hd
    rcases entries with _ | ⟨e, t⟩
    · rw [show scoreLine [] prec = [] from rfl] at hd
      cases hd
    · obtain ⟨c, hc, hdig⟩ := toFixed_has_digit prec e.score
      have hcmem : c ∈ scoreLine (e :: t) prec := by
        unfold scoreLine
        simp only [List.map_cons]
        exact head_mem_intercalate_comma hc
      rw [hd] at hcmem
      simp only [dash3, List.mem_cons, List.not_mem_nil, or_false] at hcmem
      rcases hcmem with h | h | h <;> exact absurd (h ▸ hdig) (by decide)
  · intro c hc
    rcases hchars c hc with h | h
    · rw [h]
      decide
    · exact (scoreChar_facts h).2.2

theorem escapeChar_ne_nl (c : Char) : ∀ c' ∈ escapeChar c, c' ≠ '\n' := by
  intro c' hc'
  unfold escapeChar at hc'
  by_cases h1 : c = '|'
  · rw [if_pos h1] at hc'
    rcases List.mem_cons.mp hc' with h | h
    · subst h; decide
    · simp only [List.mem_singleton] at h; subst h; decide
  · rw [if_neg h1] at hc'
    by_cases h2 : c = '>'
    · rw [if_pos h2] at hc'
      rcases List.mem_cons.mp hc' with h | h
      · subst h; decide
      · simp only [List.mem_singleton] at h; subst h; decide
    · rw [if_neg h2] at hc'
      by_cases h3 : c = '\\'
      · rw [if_pos h3] at hc'
        rcases List.mem_cons.mp hc' with h | h
        · subst h; decide
        · simp only [List.mem_singleton] at h; subst h; decide
      · rw [if_neg h3] at hc'
        by_cases h4 : c = '\n'
        · rw [if_pos h4] at hc'
          rcases List.mem_cons.mp hc' with h | h
          · subst h; decide
          · simp only [List.mem_singleton] at h; subst h; decide
        · rw [if_neg h4] at hc'
          simp only [List.mem_singleton] at hc'
          subst hc'
          exact h4

theorem escapeLabel_ne_nl (s : Str) : ∀ c' ∈ escapeLabel s, c' ≠ '\n' := by
  intro c' hc'
  unfold escapeLabel at hc'
  rw [List.mem_flatMap] at hc'
  obtain ⟨c, -, hc2⟩ := hc'
  exact escapeChar_ne_nl c c' hc2

theorem encodeChildren_ne_nl (kids : List (Char × Str × PackNode)) (idx : ℕ) :
    ∀ c ∈ encodeChildren kids idx, c ≠ '\n' := by
  induction kids generalizing idx with
  | nil => intro c hc; cases hc
  | cons k t ih =>
    intro c hc
    obtain ⟨kc, klbl, kn⟩ := k
    rw [encodeChildren] at hc
    rcases List.mem_append.mp hc with h | h
    · rcases List.mem_append.mp h with h1 | h1
      · rcases List.mem_cons.mp h1 with h2 | h2
        · subst h2; decide
        · exact escapeLabel_ne_nl _ c h2
      · rcases List.mem_cons.mp h1 with h2 | h2
        · subst h2; decide
        · exact natToBase_chars 36 b36DigitChar (fun ch => ch ≠ '\n') (by norm_num)
            (fun d hd => (b36DigitChar_ne_nl hd).1) idx c h2
    · exact ih (idx + 1) c h

theorem encodeChildren_shape (kids : List (Char × Str × PackNode)) (idx : ℕ) :
    encodeChildren kids idx = [] ∨ ∃ rest, encodeChildren kids idx = '|' :: rest := by
  cases kids with
  | nil => exact Or.inl rfl
  | cons k t =>
    obtain ⟨kc, kl, kn⟩ := k
    right
    refine ⟨(escapeLabel kl ++ '>' :: natToBase36 idx) ++ encodeChildren t (idx + 1), ?_⟩
    rw [encodeChildren]
    simp

theorem intercalate_comma_head (A : Str) (t : List Str) :
    ∃ s, List.intercalate [','] (A :: t) = A ++ s := by
  cases t with
  | nil => exact ⟨[], by rw [intercalate_comma_single]; simp⟩
  | cons y t' => exact ⟨',' :: List.intercalate [','] (y :: t'), intercalate_comma_cons₂ _ _ _⟩

theorem encodeNode_okLine (n : PackNode) (idx : ℕ) : okLine (encodeNode n idx) := by
  constructor
  · intro h
    unfold encodeNode at h
    rcases List.mem_append.mp h with h | h
    · by_cases hidx : n.entryIndices = []
      · rw [if_pos hidx] at h
        simp at h
      · rw [if_neg hidx] at h
        rcases mem_intercalate_comma h with h' | ⟨p, hp, hcp⟩
        · exact absurd h' (by decide)
        · simp only [List.mem_map] at hp
          obtain ⟨i, -, rfl⟩ := hp
          have hdig := natToBase_chars 10 decDigitChar (fun ch => ch.isDigit = true)
            (by norm_num) (fun d hd => decDigitChar_digit hd) i _ hcp
          exact absurd rfl (digit_facts hdig).1
    · exact encodeChildren_ne_nl _ idx '\n' h rfl
  · intro hd
    unfold encodeNode at hd
    by_cases hidx : n.entryIndices = []
    · rw [if_pos hidx] at hd
      rcases encodeChildren_shape (sortedKids n) idx with h | ⟨rest, h⟩
      · rw [h] at hd
        simp [dash3] at hd
      · rw [h] at hd
        simp [dash3] at hd
    · rw [if_neg hidx] at hd
      rcases hn : n.entryIndices with _ | ⟨i0, irest⟩
      · exact hidx hn
      · rw [hn, List.map_cons] at hd
        obtain ⟨s, hs⟩ := intercalate_comma_head (natToDec i0) (irest.map natToDec)
        rw [hs] at hd
        rcases hx : natToDec i0 with _ | ⟨c, cs⟩
        · exact natToBase_ne_nil _ _ _ hx
        · have hcd : c.isDigit = true := by
            refine natToBase_chars 10 decDigitChar (fun ch => ch.isDigit = true)
              (by norm_num) (fun d hd => decDigitChar_digit hd) i0 c ?_
            rw [show natToBase 10 decDigitChar i0 = c :: cs from hx]
            simp
          rw [hx] at hd
          simp only [dash3, List.cons_append, List.append_assoc, List.cons.injEq] at hd
          obtain ⟨h1, -⟩ := hd
          exact absurd (h1 ▸ hcd) (by decide)

theorem bfsEncode_ok :
    ∀ (f : ℕ) (q : List PackNode) (i : ℕ), ∀ l ∈ bfsEncode f q i, okLine l := by
  intro f
  induction f with
  | zero => intro q i l hl; cases hl
  | succ f ih =>
    intro q i l hl
    cases q with
    | nil => cases hl
    | cons n rest =>
      rw [bfsEncode] at hl
      rcases List.mem_cons.mp hl with h | h
      · subst h
        exact encodeNode_okLine n i
      · exact ih _ _ l h

theorem bfsEncode_root_ne_nil (root : PackNode) :
    bfsEncode (packSize root) [root] 1 ≠ [] := by
  obtain ⟨ch, idxs⟩ := root
  rw [show packSize (.mk ch idxs) = packSizeList ch + 1 from by rw [packSize]; omega]
  rw [bfsEncode]
  simp

theorem header_okLine : okLine ("PTRIE:1:CI".toList) := ⟨by decide, by decide⟩

theorem scoreLine_ne_nil {entries : List Entry} (h : entries ≠ []) (prec : ℕ) :
    scoreLine entries prec ≠ [] := by
  rcases entries with _ | ⟨e, t⟩
  · exact absurd rfl h
  · unfold scoreLine
    rw [List.map_cons]
    obtain ⟨s, hs⟩ := intercalate_comma_head (toFixed prec e.score) (t.map fun e => toFixed prec e.score)
    rw [hs]
    intro hnil
    exact toFixed_ne_nil prec e.score (List.append_eq_nil.mp hnil).1

/-- The three sections of a `packTrie` document, given texts that are
legal in-section lines. -/
theorem packTrie_sections (entries : List Entry) (prec : ℕ)
    (htext : ∀ e ∈ entries, okLine e.text) :
    jsSplitSep (packTrie entries prec) =
      [List.intercalate ['\n'] ("PTRIE:1:CI".toList :: entries.map Entry.text),
        scoreLine entries prec,
        List.intercalate ['\n']
          (bfsEncode (packSize (packRoot entries)) [packRoot entries] 1)] := by
  simp only [packTrie, packLines]
  rw [show ("PTRIE:1:CI".toList :: entries.map Entry.text) ++ [dash3] ++
        [scoreLine entries prec] ++ [dash3] ++
        bfsEncode (packSize (packRoot entries)) [packRoot entries] 1
      = ("PTRIE:1:CI".toList :: entries.map Entry.text) ++ dash3 ::
        ([scoreLine entries prec] ++ dash3 ::
          bfsEncode (packSize (packRoot entries)) [packRoot entries] 1) from by simp]
  rw [jsSplitSep_three (by simp) (by simp) (bfsEncode_root_ne_nil _) ?_ ?_ ?_]
  · rw [intercalate_single]
  · intro l hl
    rcases List.mem_cons.mp hl with h | h
    · subst h
      exact header_okLine
    · simp only [List.mem_map] at h
      obtain ⟨e, he, rfl⟩ := h
      exact htext e he
  · intro l hl
    simp only [List.mem_singleton] at hl
    subst hl
    exact (scoreLine_okLine entries prec).1
  · exact bfsEncode_ok _ _ _

theorem dropWhile_eq_self_of_none {p : Char → Bool} {l : Str}
    (h : ∀ c ∈ l, p c = false) : l.dropWhile p = l := by
  cases l with
  | nil => rfl
  | cons c t =>
    rw [List.dropWhile_cons, h c (by simp)]
    simp

theorem jsTrim_eq_self {s : Str} (h : ∀ c ∈ s, isJsWs c = false) : jsTrim s = s := by
  unfold jsTrim
  rw [dropWhile_eq_self_of_none h]
  rw [dropWhile_eq_self_of_none (fun c hc => h c (List.mem_reverse.mp hc))]
  exact List.reverse_reverse s

theorem buildEntries_map (entries : List Entry) :
    buildEntries (entries.map Entry.text) (entries.map Entry.score) = entries := by
  induction entries with
  | nil => rfl
  | cons e t ih =>
    simp only [List.map_cons, buildEntries, List.headD_cons, List.tail_cons]
    rw [ih]

/-- Parsing a packed document recovers the entries exactly, given texts
that are legal lines and scores that survive `toFixed`/`Number`. -/
theorem parse_packTrie (entries : List Entry) (prec : ℕ)
    (htext : ∀ e ∈ entries, okLine e.text)
    (hscores : ∀ e ∈ entries, jsNumber (toFixed prec e.score) = e.score) :
    parse (packTrie entries prec) = .ok ⟨1, false, entries⟩ := by
  by_cases hent : entries = []
  · subst hent
    rfl
  · have hsplit0 : (List.intercalate ['\n']
        ("PTRIE:1:CI".toList :: entries.map Entry.text)).splitOn '\n' =
        "PTRIE:1:CI".toList :: entries.map Entry.text := by
      refine List.splitOn_intercalate _ '\n' ?_ (by simp)
      intro l hl
      rcases List.mem_cons.mp hl with h | h
      · subst h
        decide
      · simp only [List.mem_map] at h
        obtain ⟨e, he, rfl⟩ := h
        exact (htext e he).1
    have hsLine : jsTrim (scoreLine entries prec) = scoreLine entries prec :=
      jsTrim_eq_self (scoreLine_okLine entries prec).2
    have hlen : 0 < (scoreLine entries prec).length :=
      List.length_pos.mpr (scoreLine_ne_nil hent prec)
    have hsplitC : (scoreLine entries prec).splitOn ',' =
        entries.map (fun e => toFixed prec e.score) := by
      unfold scoreLine
      refine List.splitOn_intercalate _ ',' ?_ (by simp [hent])
      intro l hl
      simp only [List.mem_map] at hl
      obtain ⟨e, -, rfl⟩ := hl
      intro hc
      exact absurd rfl (scoreChar_facts (toFixed_chars prec e.score ',' hc)).2.1
    have hmap : (entries.map (fun e => toFixed prec e.score)).map jsNumber =
        entries.map Entry.score := by
      rw [List.map_map]
      exact List.map_congr_left (fun e he => hscores e he)
    have e1 : List.splitOn ':' ("PTRIE:1:CI".toList)
        = ["PTRIE".toList, "1".toList, "CI".toList] := by decide
    have e2 : jsParseInt 10 ("1".toList) = some 1 := by decide
    have e3 : decide ("CI".toList = "CS".toList) = false := by decide
    simp only [parse]
    rw [packTrie_sections entries prec htext]
    simp only [List.getD_cons_zero, List.getD_cons_succ, hsplit0, List.headD_cons,
      hsLine, e1, e2, List.drop_succ_cons, List.drop_zero]
    rw [if_neg (by simp)]
    rw [if_neg (by simp)]
    rw [if_neg (by simp)]
    rw [if_pos hlen]
    rw [hsplitC, hmap]
    rw [buildEntries_map]
    rw [e3]

/-! ## The decimal round trip: `Number(q.toFixed(p)) = q` for exact `q` -/

theorem decDigitChar_val {d : ℕ} (h : d < 10) : (decDigitChar d).toNat - 48 = d := by
  interval_cases d <;> decide

theorem digit_ne_dash_dot {c : Char} (h : c.isDigit = true) : c ≠ '-' ∧ c ≠ '.' := by
  have hn : 48 ≤ c.toNat ∧ c.toNat ≤ 57 := by
    unfold Char.isDigit at h
    simp only [decide_eq_true_eq, Bool.and_eq_true] at h
    exact ⟨h.1, h.2⟩
  constructor <;> (intro he; subst he; simp at hn)

theorem natOfDigits_append_singleton (x : Str) (c : Char) :
    natOfDigits (x ++ [c]) = 10 * natOfDigits x + (c.toNat - 48) := by
  unfold natOfDigits
  rw [List.foldl_append]
  rfl

theorem natToBaseAux_dec_val :
    ∀ (f n : ℕ), 0 < n → n ≤ f →
      natOfDigits (natToBaseAux 10 decDigitChar f n []) = n := by
  intro f
  induction f with
  | zero => intro n h1 h2; omega
  | succ f ih =>
    intro n h1 h2
    rw [natToBaseAux, if_neg (by omega)]
    rw [natToBaseAux_append]
    rw [natOfDigits_append_singleton]
    have hd : (decDigitChar (n % 10)).toNat - 48 = n % 10 :=
      decDigitChar_val (Nat.mod_lt _ (by norm_num))
    by_cases h10 : n < 10
    · have hz : n / 10 = 0 := Nat.div_eq_of_lt h10
      rw [hz]
      rw [show natToBaseAux 10 decDigitChar f 0 [] = [] from by cases f <;> simp [natToBaseAux]]
      rw [hd]
      show 10 * natOfDigits [] + n % 10 = n
      rw [show natOfDigits [] = 0 from rfl]
      omega
    · rw [ih (n / 10) (by omega) (by omega), hd]
      omega

theorem natOfDigits_natToDec (n : ℕ) : natOfDigits (natToDec n) = n := by
  unfold natToDec natToBase
  by_cases h : n = 0
  · rw [if_pos h]
    subst h
    rfl
  · rw [if_neg h]
    exact natToBaseAux_dec_val (n + 1) n (by omega) (by omega)

theorem natToBaseAux_dec_length :
    ∀ (f n k : ℕ) (acc : Str), n < 10 ^ k →
      (natToBaseAux 10 decDigitChar f n acc).length ≤ k + acc.length := by
  intro f
  induction f with
  | zero => intro n k acc h; simp [natToBaseAux]
  | succ f ih =>
    intro n k acc h
    by_cases h0 : n = 0
    · rw [natToBaseAux, if_pos h0]
      omega
    · rw [natToBaseAux, if_neg h0]
      have hk : k ≠ 0 := by
        intro hk0
        subst hk0
        simp at h
        omega
      have hn10 : n / 10 < 10 ^ (k - 1) := by
        have hp : 10 ^ (k - 1) * 10 = 10 ^ k := by
          rw [← pow_succ]
          congr 1
          omega
        rw [Nat.div_lt_iff_lt_mul (by norm_num : (0:ℕ) < 10), hp]
        exact h
      have := ih (n / 10) (k - 1) (decDigitChar (n % 10) :: acc) hn10
      simp only [List.length_cons] at this
      omega

theorem natToDec_length_le {n k : ℕ} (h : n < 10 ^ k) (hk : 1 ≤ k) :
    (natToDec n).length ≤ k := by
  unfold natToDec natToBase
  by_cases h0 : n = 0
  · rw [if_pos h0]
    simpa using hk
  · rw [if_neg h0]
    have := natToBaseAux_dec_length (n + 1) n k [] h
    simpa using this

theorem natOfDigits_replicate_zero (z : ℕ) (ds : Str) :
    natOfDigits (List.replicate z '0' ++ ds) = natOfDigits ds := by
  induction z with
  | zero => rfl
  | succ z ih =>
    rw [List.replicate_succ, List.cons_append]
    unfold natOfDigits at ih ⊢
    simpa using ih

theorem splitOn_eq_single {l : Str} {x : Char} (h : ∀ c ∈ l, c ≠ x) :
    l.splitOn x = [l] := by
  rw [List.splitOn]
  refine List.splitOnP_eq_single _ _ ?_
  intro c hc
  simp [h c hc]

theorem splitOn_dot_pair {I F : Str} (hI : ∀ c ∈ I, c ≠ '.') (hF : ∀ c ∈ F, c ≠ '.') :
    (I ++ '.' :: F).splitOn '.' = [I, F] := by
  have hi : List.intercalate ['.'] [I, F] = I ++ '.' :: F := by
    simp [List.intercalate, List.intersperse]
  rw [← hi]
  refine List.splitOn_intercalate _ '.' ?_ (by simp)
  intro l hl
  rcases List.mem_cons.mp hl with h | h
  · subst h
    intro hc
    exact hI _ hc rfl
  · simp only [List.mem_singleton] at h
    subst h
    intro hc
    exact hF _ hc rfl

theorem natToDec_digits (n : ℕ) : ∀ c ∈ natToDec n, c.isDigit = true :=
  natToBase_chars 10 decDigitChar (fun ch => ch.isDigit = true) (by norm_num)
    (fun d hd => decDigitChar_digit hd) n

theorem natToDec_ne_nil (n : ℕ) : natToDec n ≠ [] :=
  natToBase_ne_nil 10 decDigitChar n

theorem jsNumberAbs_digits {s : Str} (hne : s ≠ []) (hd : ∀ c ∈ s, c.isDigit = true) :
    jsNumberAbs s = mkRat (natOfDigits s) 1 := by
  unfold jsNumberAbs
  rw [splitOn_eq_single (fun c hc => (digit_ne_dash_dot (hd c hc)).2)]
  change (if s ≠ [] ∧ s.all Char.isDigit = true then mkRat ((natOfDigits s : ℤ)) 1
    else (0 : ℚ)) = mkRat ((natOfDigits s : ℤ)) 1
  rw [if_pos ⟨hne, List.all_eq_true.mpr hd⟩]

theorem jsNumberAbs_fixed (p a : ℕ) (hp : 1 ≤ p) :
    jsNumberAbs (natToDec (a / 10 ^ p) ++ '.' ::
      (List.replicate (p - (natToDec (a % 10 ^ p)).length) '0' ++ natToDec (a % 10 ^ p)))
      = mkRat a (10 ^ p) := by
  have hIdig := natToDec_digits (a / 10 ^ p)
  have hFdig := natToDec_digits (a % 10 ^ p)
  have hPFdig : ∀ c ∈ List.replicate (p - (natToDec (a % 10 ^ p)).length) '0' ++
      natToDec (a % 10 ^ p), c.isDigit = true := by
    intro c hc
    rcases List.mem_append.mp hc with h | h
    · rw [List.eq_of_mem_replicate h]
      decide
    · exact hFdig c h
  unfold jsNumberAbs
  rw [splitOn_dot_pair (fun c hc => (digit_ne_dash_dot (hIdig c hc)).2)
    (fun c hc => (digit_ne_dash_dot (hPFdig c hc)).2)]
  change (if (natToDec (a / 10 ^ p)).all Char.isDigit = true ∧
      (List.replicate (p - (natToDec (a % 10 ^ p)).length) '0' ++
        natToDec (a % 10 ^ p)).all Char.isDigit = true ∧
      (natToDec (a / 10 ^ p) ≠ [] ∨
        List.replicate (p - (natToDec (a % 10 ^ p)).length) '0' ++
          natToDec (a % 10 ^ p) ≠ []) then
    mkRat ((natOfDigits (natToDec (a / 10 ^ p)) : ℤ) *
        10 ^ (List.replicate (p - (natToDec (a % 10 ^ p)).length) '0' ++
          natToDec (a % 10 ^ p)).length +
        (natOfDigits (List.replicate (p - (natToDec (a % 10 ^ p)).length) '0' ++
          natToDec (a % 10 ^ p)) : ℤ))
      (10 ^ (List.replicate (p - (natToDec (a % 10 ^ p)).length) '0' ++
        natToDec (a % 10 ^ p)).length)
    else (0 : ℚ)) = mkRat ((a : ℤ)) (10 ^ p)
  rw [if_pos ⟨List.all_eq_true.mpr hIdig, List.all_eq_true.mpr hPFdig,
    Or.inl (natToDec_ne_nil _)⟩]
  have hfl : (natToDec (a % 10 ^ p)).length ≤ p :=
    natToDec_length_le (Nat.mod_lt _ (pow_pos (by norm_num) p)) hp
  have hlen : (List.replicate (p - (natToDec (a % 10 ^ p)).length) '0' ++
      natToDec (a % 10 ^ p)).length = p := by
    simp only [List.length_append, List.length_replicate]
    omega
  rw [hlen]
  rw [natOfDigits_replicate_zero]
  rw [natOfDigits_natToDec, natOfDigits_natToDec]
  congr 1
  have : a / 10 ^ p * 10 ^ p + a % 10 ^ p = a := by
    rw [Nat.mul_comm]
    exact Nat.div_add_mod a (10 ^ p)
  exact_mod_cast congrArg (fun x : ℕ => (x : ℤ)) this

/-- For a score exactly representable at precision `p`, printing with
`toFixed` and re-reading with `Number` is the identity. -/
theorem jsNumber_toFixed (p : ℕ) (q : ℚ) (h : q.den ∣ 10 ^ p) :
    jsNumber (toFixed p q) = q := by
  obtain ⟨k, hk⟩ := h
  have h10 : 0 < 10 ^ p := pow_pos (by norm_num) p
  have hk0 : k ≠ 0 := by
    intro h0
    rw [h0, Nat.mul_zero] at hk
    omega
  have hden : 0 < q.den := q.den_pos
  have hdenz : (0 : ℤ) < (q.den : ℤ) := by exact_mod_cast hden
  have hcast : ((10 : ℤ)) ^ p = (q.den : ℤ) * (k : ℤ) := by
    have h1 : ((10 ^ p : ℕ) : ℤ) = ((q.den * k : ℕ) : ℤ) := Int.natCast_inj.mpr hk
    push_cast at h1
    exact h1
  have h2d : (0 : ℤ) < 2 * (q.den : ℤ) := by linarith
  have hm : Int.fdiv (2 * q.num * (10 : ℤ) ^ p + (q.den : ℤ)) (2 * (q.den : ℤ))
      = q.num * k := by
    rw [hcast]
    rw [Int.fdiv_eq_ediv _ (le_of_lt h2d)]
    rw [show 2 * q.num * ((q.den : ℤ) * (k : ℤ)) + (q.den : ℤ)
        = (q.den : ℤ) + q.num * (k : ℤ) * (2 * (q.den : ℤ)) from by ring]
    rw [Int.add_mul_ediv_right _ _ h2d.ne']
    rw [Int.ediv_eq_zero_of_lt (le_of_lt hdenz) (by linarith)]
    ring
  have hval : mkRat (q.num * (k : ℤ)) (10 ^ p) = q := by
    rw [Rat.mkRat_eq_divInt]
    rw [show ((10 ^ p : ℕ) : ℤ) = (q.den : ℤ) * (k : ℤ) from by push_cast; exact hcast]
    exact (Rat.divInt_mul_right (by exact_mod_cast hk0)).trans (Rat.num_divInt_den q)
  have habs : ((q.num * (k : ℤ)).natAbs : ℤ) = q.num * k ∨
      ((q.num * (k : ℤ)).natAbs : ℤ) = -(q.num * k) := by omega
  simp only [toFixed]
  rw [hm]
  by_cases hneg : q.num * (k : ℤ) < 0
  · rw [if_pos hneg]
    have habs' : ((q.num * (k : ℤ)).natAbs : ℤ) = -(q.num * k) := by omega
    by_cases hp : p = 0
    · subst hp
      rw [if_pos rfl]
      rw [show (['-'] : Str) ++ natToDec (q.num * (k : ℤ)).natAbs
          = '-' :: natToDec (q.num * (k : ℤ)).natAbs from rfl]
      unfold jsNumber
      rw [if_pos (by simp)]
      simp only [List.drop_succ_cons, List.drop_zero]
      rw [jsNumberAbs_digits (natToDec_ne_nil _) (natToDec_digits _)]
      rw [natOfDigits_natToDec]
      rw [habs', ← Rat.neg_mkRat, neg_neg]
      exact hval
    · rw [if_neg hp]
      rw [show (['-'] : Str) ++ natToDec ((q.num * (k : ℤ)).natAbs / 10 ^ p) ++ ['.'] ++
            List.replicate (p - (natToDec ((q.num * (k : ℤ)).natAbs % 10 ^ p)).length) '0' ++
            natToDec ((q.num * (k : ℤ)).natAbs % 10 ^ p)
          = '-' :: (natToDec ((q.num * (k : ℤ)).natAbs / 10 ^ p) ++ '.' ::
            (List.replicate (p - (natToDec ((q.num * (k : ℤ)).natAbs % 10 ^ p)).length) '0' ++
              natToDec ((q.num * (k : ℤ)).natAbs % 10 ^ p))) from by simp]
      unfold jsNumber
      rw [if_pos (by simp)]
      simp only [List.drop_succ_cons, List.drop_zero]
      rw [jsNumberAbs_fixed _ _ (by omega)]
      rw [habs', ← Rat.neg_mkRat, neg_neg]
      exact hval
  · rw [if_neg hneg]
    have habs' : ((q.num * (k : ℤ)).natAbs : ℤ) = q.num * k := by omega
    by_cases hp : p = 0
    · subst hp
      rw [if_pos rfl]
      rw [List.nil_append]
      unfold jsNumber
      rcases hx : natToDec (q.num * (k : ℤ)).natAbs with _ | ⟨c, cs⟩
      · exact absurd hx (natToDec_ne_nil _)
      · have hcd : c.isDigit = true := natToDec_digits _ c (by rw [hx]; simp)
        rw [if_neg (by
          simp only [List.headD_cons]
          exact (digit_ne_dash_dot hcd).1)]
        rw [← hx]
        rw [jsNumberAbs_digits (natToDec_ne_nil _) (natToDec_digits _)]
        rw [natOfDigits_natToDec]
        rw [habs']
        exact hval
    · rw [if_neg hp]
      rw [List.nil_append]
      rw [show natToDec ((q.num * (k : ℤ)).natAbs / 10 ^ p) ++ ['.'] ++
            List.replicate (p - (natToDec ((q.num * (k : ℤ)).natAbs % 10 ^ p)).length) '0' ++
            natToDec ((q.num * (k : ℤ)).natAbs % 10 ^ p)
          = natToDec ((q.num * (k : ℤ)).natAbs / 10 ^ p) ++ '.' ::
            (List.replicate (p - (natToDec ((q.num * (k : ℤ)).natAbs % 10 ^ p)).length) '0' ++
              natToDec ((q.num * (k : ℤ)).natAbs % 10 ^ p)) from by simp]
      unfold jsNumber
      rcases hx : natToDec ((q.num * (k : ℤ)).natAbs / 10 ^ p) with _ | ⟨c, cs⟩
      · exact absurd hx (natToDec_ne_nil _)
      · have hcd : c.isDigit = true := natToDec_digits _ c (by rw [hx]; simp)
        rw [if_neg (by
          simp only [List.cons_append, List.headD_cons]
          exact (digit_ne_dash_dot hcd).1)]
        rw [← hx]
        rw [jsNumberAbs_fixed _ _ (by omega)]
        rw [habs']
        exact hval

/-! ## Claim theorems: C1 and the amended C2 -/

/-- Counterexample to C1 as stated: a single entry whose text contains a
newline (normalized texts trivially pairwise distinct).  The direct trie
returns the entry `"a\nb"` for prefix `"a"`, while the trie rebuilt from
`unpackTrie (packTrie …)` returns an entry with display text `"a"`. -/
theorem c1_counterexample :
    (([Entry.mk ("a\nb".toList) 0].map (fun e => e.text.map Char.toLower)).Nodup) ∧
    (unpackTrie (packTrie [⟨"a\nb".toList, 0⟩] 2)).toOption.map
        (fun t => t.search ("a".toList) 10) = some [⟨"a".toList, 0⟩] ∧
    (RadixTrie.fromEntries [⟨"a\nb".toList, 0⟩]).search ("a".toList) 10 =
      [⟨"a\nb".toList, 0⟩] ∧
    ([Entry.mk ("a".toList) 0] : List Entry) ≠ [⟨"a\nb".toList, 0⟩] := by
  exact ⟨by decide, by decide, by decide, by decide⟩

/-- C1 (amended).  Codec round trip: for every entry list with pairwise
distinct normalized texts whose texts contain no newline and are not the
separator line `---`, and whose scores are exactly representable at the
configured precision, `search(p, k)` on the trie rebuilt by
`unpackTrie (packTrie entries)` returns exactly the same ranked list as
`search(p, k)` on a trie built directly from the entries, for every
prefix and limit. -/
theorem c1_codec_round_trip (entries : List Entry) (prec : ℕ)
    (hdist : (entries.map (fun e => e.text.map Char.toLower)).Nodup)
    (htext : ∀ e ∈ entries, '\n' ∉ e.text ∧ e.text ≠ dash3)
    (hscore : ∀ e ∈ entries, e.score.den ∣ 10 ^ prec)
    (pre : Str) (k : ℕ) :
    (unpackTrie (packTrie entries prec)).map (fun t => t.search pre k)
      = .ok ((RadixTrie.fromEntries entries).search pre k) := by
  have hp := parse_packTrie entries prec (fun e he => htext e he)
    (fun e he => jsNumber_toFixed prec e.score (hscore e he))
  unfold unpackTrie
  rw [hp]
  rfl

/-- Witness for C1 at a two-entry list with mixed casing and a
fractional score. -/
theorem c1_codec_round_trip_witness :
    ((([⟨"Ab".toList, mkRat 1 2⟩, ⟨"b".toList, 0⟩] : List Entry).map
        (fun e => e.text.map Char.toLower)).Nodup) ∧
    (∀ e ∈ ([⟨"Ab".toList, mkRat 1 2⟩, ⟨"b".toList, 0⟩] : List Entry),
      '\n' ∉ e.text ∧ e.text ≠ dash3) ∧
    (∀ e ∈ ([⟨"Ab".toList, mkRat 1 2⟩, ⟨"b".toList, 0⟩] : List Entry),
      e.score.den ∣ 10 ^ 2) ∧
    (unpackTrie (packTrie [⟨"Ab".toList, mkRat 1 2⟩, ⟨"b".toList, 0⟩] 2)).map
        (fun t => t.search ("a".toList) 10)
      = .ok ((RadixTrie.fromEntries
          [⟨"Ab".toList, mkRat 1 2⟩, ⟨"b".toList, 0⟩]).search ("a".toList) 10) := by
  refine ⟨by decide, by decide, by decide, ?_⟩
  exact c1_codec_round_trip [⟨"Ab".toList, mkRat 1 2⟩, ⟨"b".toList, 0⟩] 2
    (by decide) (by decide) (by decide) ("a".toList) 10

/-- C2 (amended).  The current packed format is version 1 with a
three-section layout: the emitted document's first line is the header
`PTRIE:1:CI`; for entries whose texts are legal lines the document
splits into exactly three sections; and the parser accepts only
documents with exactly three sections. -/
theorem c2_version1_three_sections (entries : List Entry) (prec : ℕ)
    (htext : ∀ e ∈ entries, '\n' ∉ e.text ∧ e.text ≠ dash3) :
    ((packTrie entries prec).splitOn '\n').headD [] = "PTRIE:1:CI".toList ∧
    (jsSplitSep (packTrie entries prec)).length = 3 ∧
    (∀ s : Str, (jsSplitSep s).length ≠ 3 → (parse s).toOption = none) := by
  refine ⟨?_, ?_, fun s hs => parse_error_of_sections s hs⟩
  · have hlines : ∀ l ∈ packLines entries prec, '\n' ∉ l := by
      intro l hl
      simp only [packLines, List.append_assoc, List.cons_append, List.singleton_append,
        List.nil_append, List.mem_cons, List.mem_append, List.mem_map] at hl
      rcases hl with rfl | ⟨e, he, rfl⟩ | rfl | rfl | rfl | hbfs
      · decide
      · exact (htext e he).1
      · decide
      · exact (scoreLine_okLine entries prec).1.1
      · decide
      · exact (bfsEncode_ok _ _ _ l hbfs).1
    have hne : packLines entries prec ≠ [] := by
      simp [packLines]
    unfold packTrie
    rw [List.splitOn_intercalate _ '\n' hlines hne]
    simp [packLines]
  · rw [packTrie_sections entries prec (fun e he => htext e he)]
    rfl

/-- Witness for C2 at a singleton entry list. -/
theorem c2_version1_three_sections_witness :
    (∀ e ∈ ([⟨"a".toList, 0⟩] : List Entry), '\n' ∉ e.text ∧ e.text ≠ dash3) ∧
    ((packTrie [⟨"a".toList, 0⟩] 2).splitOn '\n').headD [] = "PTRIE:1:CI".toList ∧
    (jsSplitSep (packTrie [⟨"a".toList, 0⟩] 2)).length = 3 := by
  refine ⟨by decide, ?_, ?_⟩
  · exact (c2_version1_three_sections [⟨"a".toList, 0⟩] 2 (by decide)).1
  · exact (c2_version1_three_sections [⟨"a".toList, 0⟩] 2 (by decide)).2.1

